import Mathlib

/-!
Verification development for the `iprefix` Go package (`iprefix.go`), which
expands a CIDR block or an IP address range into human-readable wildcard
prefix string patterns such as `10.1.*` or `2001:db8::*`.

The Go code is shallowly embedded: addresses are byte lists (`List Nat`,
each entry `< 256`), 16-bit words are read/written big-endian exactly as
`beUint16`/`setbeUint16` do, strings are Lean `String`s manipulated through
the same operations the Go code uses (`TrimSuffix`, slicing, `Split`,
`Join`), and every loop of the source is translated to a recursion whose
fuel matches the loop's iteration count, or to an `Option`-returning
fuelled loop where the Go loop can fail to terminate.  The formatting of
`net/netip` (`Addr.String`, RFC 5952 zero-run compression, the 4-in-6
dotted-decimal tail) is embedded from the Go standard-library behaviour the
package relies on.
-/

set_option maxRecDepth 40000

namespace IPrefix

/-! ## Characters and basic string helpers -/

/-- Decimal digit character for `n < 10`. -/
def decDigit (n : Nat) : Char := Char.ofNat (48 + n)

/-- Lower-case hexadecimal digit character for `n < 16`,
matching Go's `appendHex`. -/
def hexDigit (n : Nat) : Char := if n < 10 then Char.ofNat (48 + n) else Char.ofNat (87 + n)

/-- Fuel-driven decimal rendering helper (most significant digit first). -/
def decAux : Nat → Nat → List Char
  | 0, _ => []
  | fuel+1, n => if n < 10 then [decDigit n] else decAux fuel (n / 10) ++ [decDigit (n % 10)]

/-- Decimal rendering of a `Nat` as a character list (`fmt.Sprintf("%d", _)`
for the byte values the code prints; fuel 10 covers every value used). -/
def decChars (n : Nat) : List Char := decAux 10 n

/-- Decimal rendering as a `String`. -/
def decStr (n : Nat) : String := String.mk (decChars n)

/-- Fuel-driven hexadecimal rendering helper. -/
def hexAux : Nat → Nat → List Char
  | 0, _ => []
  | fuel+1, n => if n < 16 then [hexDigit n] else hexAux fuel (n / 16) ++ [hexDigit (n % 16)]

/-- Lower-case hexadecimal rendering without leading zeros, as produced by
Go's `net/netip` `appendHex` for 16-bit groups. -/
def hexChars (n : Nat) : List Char := hexAux 5 n

/-- Boolean prefix test on character lists. -/
def listHasPfx : List Char → List Char → Bool
  | [], _ => true
  | _ :: _, [] => false
  | p :: ps, c :: cs => p == c && listHasPfx ps cs

/-- Go `s[:len(s)-n]` on an ASCII string (drop the last `n` characters). -/
def strDropRight (s : String) (n : Nat) : String :=
  String.mk (s.data.take (s.data.length - n))

/-- Go `strings.TrimSuffix`: remove `suf` once if `s` ends with it. -/
def strTrimSuffix (s suf : String) : String :=
  if listHasPfx suf.data.reverse s.data.reverse then strDropRight s suf.data.length else s

/-- Go `strings.Join` with a separator. -/
def joinSep (sep : String) : List String → String
  | [] => ""
  | [x] => x
  | x :: y :: xs => x ++ sep ++ joinSep sep (y :: xs)

/-- Splitting a character list at every `':'`, keeping empty parts,
exactly like Go's `strings.Split(s, ":")`. -/
def splitCols : List Char → List (List Char)
  | [] => [[]]
  | c :: rest =>
    let r := splitCols rest
    if c = ':' then [] :: r
    else
      match r with
      | [] => [[c]]
      | h :: t => (c :: h) :: t

/-- Go `strings.Split(s, ":")`. -/
def splitColonStr (s : String) : List String := (splitCols s.data).map String.mk

/-- Splitting a character list at every `'.'` (used by the address parser). -/
def splitDots : List Char → List (List Char)
  | [] => [[]]
  | c :: rest =>
    let r := splitDots rest
    if c = '.' then [] :: r
    else
      match r with
      | [] => [[c]]
      | h :: t => (c :: h) :: t

/-- Numeric value of a decimal digit string. -/
def digitsVal (cs : List Char) : Nat := cs.foldl (fun a c => 10 * a + (c.toNat - 48)) 0

/-- Numeric value of a hexadecimal digit string. -/
def hexVal (cs : List Char) : Nat :=
  cs.foldl (fun a c =>
    16 * a + (if c.toNat ≥ 97 then c.toNat - 87 else if c.toNat ≥ 65 then c.toNat - 55
              else c.toNat - 48)) 0

/-! ## Byte-slice words (iprefix.go `beUint16` / `setbeUint16`) -/

/-- Big-endian 16-bit word `i` of a byte slice (`beUint16` in iprefix.go). -/
def beUint16 (ip : List Nat) (i : Nat) : Nat :=
  256 * ip.getD (2 * i) 0 + ip.getD (2 * i + 1) 0

/-- Write big-endian 16-bit word `i` of a byte slice
(`setbeUint16` in iprefix.go). -/
def setbeUint16 (ip : List Nat) (i v : Nat) : List Nat :=
  (ip.set (2 * i) (v / 256 % 256)).set (2 * i + 1) (v % 256)

/-! ## `net/netip` address formatting (the formatter the Go code calls) -/

/-- Dotted-decimal string of a 4-byte slice, as Go's `netip.Addr.String`
prints IPv4 addresses. -/
def addrString4 (ip : List Nat) : String :=
  decStr (ip.getD 0 0) ++ "." ++ decStr (ip.getD 1 0) ++ "." ++
  decStr (ip.getD 2 0) ++ "." ++ decStr (ip.getD 3 0)

/-- Length of the run of all-zero 16-bit words starting at word `i`
(Go `netip.Addr.appendTo16`, inner loop). -/
def zrl (ip : List Nat) : Nat → Nat → Nat
  | 0, _ => 0
  | fuel+1, i => if i < 8 ∧ beUint16 ip i = 0 then 1 + zrl ip fuel (i + 1) else 0

/-- Best (longest, leftmost, length ≥ 2) zero run `(zeroStart, zeroEnd)` of
the eight 16-bit words, initialised to `(255, 255)` like Go's scanner. -/
def bestZeroRun (ip : List Nat) : Nat × Nat :=
  (List.range 8).foldl
    (fun best i =>
      let l := zrl ip 8 i
      if 2 ≤ l ∧ best.2 - best.1 < l then (i, i + l) else best)
    (255, 255)

/-- Rendering loop of Go `netip.Addr.appendTo16`: hex groups separated by
`':'`, with the chosen zero run collapsed to `::`. -/
def string16render (ip : List Nat) (zs ze : Nat) : Nat → Nat → List Char
  | 0, _ => []
  | fuel+1, i =>
    if 8 ≤ i then []
    else if i = zs then
      [':', ':'] ++
        (if 8 ≤ ze then []
         else hexChars (beUint16 ip ze) ++ string16render ip zs ze fuel (ze + 1))
    else
      (if 0 < i then [':'] else []) ++ hexChars (beUint16 ip i) ++
        string16render ip zs ze fuel (i + 1)

/-- Canonical RFC 5952 style string of a 16-byte slice that is not 4-in-6. -/
def string16 (ip : List Nat) : String :=
  String.mk (string16render ip (bestZeroRun ip).1 (bestZeroRun ip).2 9 0)

/-- Go `netip.Addr.Is4In6`: bytes 0–9 are zero and bytes 10, 11 are `0xff`. -/
def is4In6bytes (ip : List Nat) : Bool :=
  (List.range 10).all (fun k => ip.getD k 0 == 0) && ip.getD 10 0 == 255 && ip.getD 11 0 == 255

/-- Go `netip.Addr.String` on a 16-byte (IPv6) address: 4-in-6 addresses
render as `::ffff:` plus the dotted-decimal low four bytes, everything else
through the zero-run compressing hex renderer. -/
def addrString16 (ip : List Nat) : String :=
  if is4In6bytes ip then "::ffff:" ++ addrString4 (ip.drop 12) else string16 ip

/-! ## Addresses -/

/-- Parsed address: family plus its byte slice (4 or 16 bytes, big-endian),
the shape `netip.Addr` exposes to this package via `AsSlice`. -/
inductive Addr
  | v4 (ip : List Nat)
  | v6 (ip : List Nat)
deriving DecidableEq, Repr

/-- Go `netip.Addr.BitLen`. -/
def Addr.bitLen : Addr → Nat
  | .v4 _ => 32
  | .v6 _ => 128

/-- Byte slice of an address (`netip.Addr.AsSlice`). -/
def Addr.bytes : Addr → List Nat
  | .v4 ip => ip
  | .v6 ip => ip

/-- Go `netip.Addr.String`. -/
def addrStringOf : Addr → String
  | .v4 ip => addrString4 ip
  | .v6 ip => addrString16 ip

/-- Numeric (unsigned big-endian) value of an address's byte slice;
`netip.Addr.Compare` on same-family addresses orders by this value. -/
def addrVal (a : Addr) : Nat := a.bytes.foldl (fun acc b => 256 * acc + b) 0

/-- Wellformedness of an address: correct byte count, every byte below 256. -/
def Addr.wf : Addr → Prop
  | .v4 ip => ip.length = 4 ∧ ∀ b ∈ ip, b < 256
  | .v6 ip => ip.length = 16 ∧ ∀ b ∈ ip, b < 256

/-! ## `genV4` (iprefix.go lines 23–42) -/

/-- Inner formatting loop of `genV4`: octets `0..block` joined with `'.'`
(a trailing `'.'` is kept whenever the last printed octet is not octet 3). -/
def genV4str (ip : List Nat) (block : Nat) : String :=
  (List.range (block + 1)).foldl
    (fun acc j => acc ++ decStr (ip.getD j 0) ++ (if j < 3 then "." else "")) ""

/-- Enumeration loop of `genV4`: values `i`, `i+1`, … with the `i == ev`
break; fuel is the number of iterations the Go loop performs. -/
def genV4go (block ev : Nat) : Nat → Nat → List Nat → List String
  | 0, _, _ => []
  | fuel+1, i, ip =>
    let ip' := ip.set block i
    let ipr := genV4str ip' block ++ (if block < 3 then "*" else "")
    if i = ev then [ipr] else ipr :: genV4go block ev fuel (i + 1) ip'

/-- `genV4` from iprefix.go: emit one pattern per value of octet `block`
from `sv` to `ev`; the loop body runs `ev - sv + 1` times (zero times when
`sv > ev`, since the loop condition fails immediately). -/
def genV4 (ip : List Nat) (block sv ev : Nat) : List String :=
  if sv ≤ ev then genV4go block ev (ev + 1 - sv) sv ip else []

/-! ## `genV6` (iprefix.go lines 44–160) -/

/-- Widening loop of `genV6` (lines 45–58): set words `block+1 .. 7` to
`0xffff` and accumulate the printable tail that will be trimmed off. -/
def genV6fill (is4In6 : Bool) : Nat → Nat → List Nat → List Nat × String
  | 0, _, ip => (ip, "")
  | fuel+1, i, ip =>
    if i < 8 then
      let ip' := setbeUint16 ip i 0xffff
      let t :=
        if is4In6 then (if i = 6 then ":255.255" else if i = 7 then ".255.255" else "")
        else ":ffff"
      let (ip'', rest) := genV6fill is4In6 fuel (i + 1) ip'
      (ip'', t ++ rest)
    else (ip, "")

/-- Computation of `eb4In6` (lines 60–64): the end value rounded down to a
whole 256-block unless its low byte is `0x00` or `0xff`. -/
def genV6eb (ev : Nat) : Nat :=
  let el8 := ev % 256
  if el8 ≠ 0xff ∧ el8 ≠ 0 then ev - el8 else ev

/-- Step update of the 4-in-6 scan (lines 71–75): switch to 256-unit steps
on an aligned value strictly below `eb4In6`, fall back to unit steps at or
above it. -/
def genV6stepUpd (step i eb : Nat) : Nat :=
  if step = 1 ∧ i % 256 = 0 ∧ i < eb then 256
  else if eb ≤ i then 1 else step

/-- Main pattern of one `genV6` iteration (lines 67–88): format the widened
address, trim the tail, in 256-step mode drop the trailing `.0`, and append
the wildcard marker. -/
def genV6mainPat (ip : List Nat) (block i : Nat) (tail : String) (is4In6 : Bool)
    (step' : Nat) : String :=
  let addrStr := addrString16 (setbeUint16 ip block i)
  let ipr := strTrimSuffix addrStr tail
  let ipr := if is4In6 ∧ step' = 256 then strDropRight ipr 2 else ipr
  if block < 7 ∨ step' = 256 then ipr ++ (if is4In6 then ".*" else ":*") else ipr

/-- `dCount` of one `genV6` iteration (lines 80–88). -/
def genV6dCount (block : Nat) (step' : Nat) : Nat :=
  if block < 7 ∨ step' = 256 then block + 2 else block + 1

/-- Leading-group fix (lines 95–99): an empty leading group (the pattern
began with `::`) becomes `"0"`; the boolean reports whether it fired. -/
def prsFix (prs : List String) : List String × Bool :=
  if prs.getD 0 "" = "" then (prs.set 0 "0", true) else (prs, false)

/-- Growth of the persistent `ext` string at the first scanned value
(lines 101–105): append `":0"` `sCount` times. -/
def extGrow (ext : String) (sCount : Int) : String :=
  ext ++ String.join (List.replicate sCount.toNat ":0")

/-- Substitution loop over indices `1 ≤ j < pCount` (lines 106–112):
replace the first empty group with `ext`. -/
def subEmptyAux (ext : String) : List String → List String × Bool
  | [] => ([], false)
  | x :: xs =>
    if x = "" then (ext :: xs, true)
    else
      let (ys, m) := subEmptyAux ext xs
      (x :: ys, m)

/-- Substitution of the first empty group at index ≥ 1 with `ext`. -/
def subEmpty (ext : String) (prs : List String) : List String × Bool :=
  match prs with
  | [] => ([], false)
  | h :: t =>
    let (t', m) := subEmptyAux ext t
    (h :: t', m)

/-- Count of consecutive `"0"` groups reading down from index
`pCount - 2` (lines 115–122). -/
def countZeroRev : List String → Nat
  | [] => 0
  | x :: xs => if x = "0" then 1 + countZeroRev xs else 0

/-- `preZero` of lines 115–122. -/
def preZeroOf (prs : List String) : Nat :=
  countZeroRev (prs.take (prs.length - 1)).reverse

/-- Pre-zero folding (lines 123–146).  Returns the updated group list, `mod`
flag and `iBlock`, together with the extra pattern the `preZero == 1` branch
emits before clearing the zero group. -/
def pzApply (prs : List String) (pCount : Nat) (mod : Bool) (iBlock : Int) :
    List String × Bool × Int × List String :=
  let pz := preZeroOf prs
  if pz = 2 then
    if 3 < pCount then
      (((prs.set (pCount - 3) "").set (pCount - 2) "*").take (pCount - 1), true, iBlock - 2, [])
    else (prs, mod, iBlock, [])
  else if pz = 1 then
    let extraOut :=
      if pCount = 2 then []
      else if mod ∧ 2 < pCount then [joinSep ":" prs] else []
    let prs1 := if pCount = 2 then prs.set (pCount - 1) ":*" else prs
    (prs1.set (pCount - 2) "", true, iBlock - 1, extraOut)
  else (prs, mod, iBlock, [])

/-- Final variant emission (lines 147–153): when a modification occurred,
emit the joined group list, with the trailing group forced to `":"` when the
resolved depth `iBlock` is 4. -/
def finalEmit (prs : List String) (pCount : Nat) (mod : Bool) (iBlock : Int) : List String :=
  if mod then
    let prs' := if iBlock = 4 then prs.set (pCount - 1) ":" else prs
    [joinSep ":" prs']
  else []

/-- Extra-pattern machinery of one `genV6` iteration (lines 90–153): split
the emitted pattern on `':'`, fix the leading group, when `zCount < 3` and
`block < 5` substitute the collapsed run, fold trailing zero groups and emit
the textual variants.  Returns the extra patterns plus the updated `ext`. -/
def genV6extras (block i sv : Nat) (ext ipr : String) (dCount : Nat) : List String × String :=
  let prs := splitColonStr ipr
  let pCount := prs.length
  let sCount : Int := (dCount : Int) - (pCount : Int)
  let zCount : Int := sCount + 1
  let (prs, mod) := prsFix prs
  let zCount := zCount + (if mod then 1 else 0)
  if zCount < 3 ∧ block < 5 then
    let ext := if i = sv then extGrow ext sCount else ext
    let (prs, mod2) := subEmpty ext prs
    let mod := mod || mod2
    let (prs, mod, iBlock, extraPz) := pzApply prs pCount mod (block : Int)
    (extraPz ++ finalEmit prs pCount mod iBlock, ext)
  else ([], ext)

/-- One iteration of the main `genV6` loop: the main pattern followed by
its textual variants, plus the updated `ext` and `step`. -/
def genV6iter (ip : List Nat) (block : Nat) (tail : String) (is4In6 : Bool)
    (eb sv i step : Nat) (ext : String) : List String × String × Nat :=
  let step' := if is4In6 then genV6stepUpd step i eb else step
  let ipr := genV6mainPat ip block i tail is4In6 step'
  let dCount := genV6dCount block step'
  let (extras, ext') := genV6extras block i sv ext ipr dCount
  (ipr :: extras, ext', step')

/-- Main loop of `genV6` (lines 66–158), with the `uint16` counter wrapping
on `i += step` and the `i == ev` break; `none` when the fuel runs out, which
models a non-terminating Go loop. -/
def genV6go (ip : List Nat) (block : Nat) (tail : String) (is4In6 : Bool)
    (eb sv ev : Nat) : Nat → Nat → Nat → String → List String → Option (List String)
  | 0, _, _, _, _ => none
  | fuel+1, i, step, ext, acc =>
    if i ≤ ev then
      let (out, ext', step') := genV6iter ip block tail is4In6 eb sv i step ext
      if i = ev then some (acc ++ out)
      else genV6go ip block tail is4In6 eb sv ev fuel ((i + step') % 65536) step' ext' (acc ++ out)
    else some acc

/-- Fuel budget that covers every terminating run of the `genV6` loop: a
terminating run never wraps, so it performs at most 65536 iterations. -/
def genV6fuel : Nat := 65537

/-- `genV6` from iprefix.go; `none` when the Go loop never terminates. -/
def genV6 (ip : List Nat) (block sv ev : Nat) (is4In6 : Bool) : Option (List String) :=
  let (ip', tail) := genV6fill is4In6 8 (block + 1) ip
  genV6go ip' block tail is4In6 (genV6eb ev) sv ev genV6fuel sv 1 "0" []

/-! ## `processPrefix` (iprefix.go lines 162–194) -/

/-- Parsed CIDR (`netip.Prefix`): an address and a prefix bit length. -/
structure GoPfx where
  addr : Addr
  bits : Nat
deriving DecidableEq, Repr

/-- Scanned word index: `int((m - 1) / wordBits)` with Go's
truncating (toward zero) integer division, so `m = 0` gives index 0. -/
def scanBlock (wordBits m : Nat) : Nat := (Int.tdiv ((m : Int) - 1) (wordBits : Int)).toNat

/-- Variable bit count of the scanned word (lines 173–177 resp. 183–187):
`m % wordBits` flipped to `wordBits - (m % wordBits)` when the remainder is
positive or `m = 0`. -/
def scanVarBits (wordBits m : Nat) : Nat :=
  let vb := m % wordBits
  if 0 < vb ∨ m = 0 then wordBits - vb else vb

/-- Start value of the v4 scan: `ip[block] & (0xff << variableBits)` in
8-bit arithmetic. -/
def v4sv (ip : List Nat) (m : Nat) : Nat :=
  ip.getD (scanBlock 8 m) 0 &&& (0xff <<< scanVarBits 8 m) % 256

/-- End value of the v4 scan: `sv + 1<<variableBits - 1` in 8-bit
arithmetic (wrapping). -/
def v4ev (ip : List Nat) (m : Nat) : Nat :=
  (v4sv ip m + (1 <<< scanVarBits 8 m) % 256 + 255) % 256

/-- Start value of the v6 scan: `beUint16(ip, block) & (0xffff << variableBits)`
in 16-bit arithmetic. -/
def v6sv (ip : List Nat) (m : Nat) : Nat :=
  beUint16 ip (scanBlock 16 m) &&& (0xffff <<< scanVarBits 16 m) % 65536

/-- End value of the v6 scan in 16-bit arithmetic (wrapping). -/
def v6ev (ip : List Nat) (m : Nat) : Nat :=
  (v6sv ip m + (1 <<< scanVarBits 16 m) % 65536 + 65535) % 65536

/-- `processPrefix` from iprefix.go: single IPs print themselves, otherwise
the scanned word is enumerated by `genV4`/`genV6`; `none` models a
non-terminating `genV6` loop. -/
def processPrefix (p : GoPfx) : Option (List String) :=
  if p.bits = p.addr.bitLen then some [addrStringOf p.addr]
  else
    match p.addr with
    | .v4 ip => some (genV4 ip (scanBlock 8 p.bits) (v4sv ip p.bits) (v4ev ip p.bits))
    | .v6 ip => genV6 ip (scanBlock 16 p.bits) (v6sv ip p.bits) (v6ev ip p.bits) (is4In6bytes ip)

/-! ## Address and prefix parsing

Modelled from the spec: address string parsing is an out-of-scope external
collaborator ("parse a textual address into a fixed-width big-endian byte
sequence tagged with family"; `parse(text) -> Address` fails with
`ParseError` on malformed text).  The model follows the textual address
grammar the collaborator (`net/netip`) accepts: dotted decimal quads
without leading zeros for v4; hex groups separated by `':'` with a single
optional `::` gap and an optional dotted-quad tail for v6. -/

/-- Decimal octet field: 1–3 digits, no leading zero, value ≤ 255. -/
def parseOctet (cs : List Char) : Option Nat :=
  if cs ≠ [] ∧ cs.all (fun c => c.isDigit) ∧ cs.length ≤ 3 ∧
      (cs.length = 1 ∨ cs.getD 0 ' ' ≠ '0') then
    let v := digitsVal cs
    if v ≤ 255 then some v else none
  else none

/-- Modelled from the spec: the v4 side of the parsing collaborator —
four octet fields separated by `'.'`. -/
def parseV4chars (cs : List Char) : Option (List Nat) :=
  let parts := splitDots cs
  if parts.length = 4 then parts.mapM parseOctet else none

/-- Hexadecimal group field: 1–4 hex digits. -/
def parseHexGroup (cs : List Char) : Option Nat :=
  if cs ≠ [] ∧ cs.length ≤ 4 ∧
      cs.all (fun c => c.isDigit ∨ ('a' ≤ c ∧ c ≤ 'f') ∨ ('A' ≤ c ∧ c ≤ 'F')) then
    some (hexVal cs)
  else none

/-- Group list to 16-bit words, allowing a dotted quad only as the final
group (contributing two words). -/
def parseGroups : List (List Char) → Option (List Nat)
  | [] => some []
  | [g] =>
    if g.contains '.' then
      (parseV4chars g).map (fun q => [256 * q.getD 0 0 + q.getD 1 0, 256 * q.getD 2 0 + q.getD 3 0])
    else (parseHexGroup g).map (fun w => [w])
  | g :: gs => do
    let w ← parseHexGroup g
    let ws ← parseGroups gs
    pure (w :: ws)

/-- Words to bytes (big-endian). -/
def wordsToBytes (ws : List Nat) : List Nat :=
  ws.foldr (fun w acc => (w / 256 % 256) :: (w % 256) :: acc) []

/-- Group list to 16-bit words with dotted quads rejected (for groups left
of a `::` gap, which can never be the final group of the address). -/
def parseGroupsNoDot (gs : List (List Char)) : Option (List Nat) :=
  if gs.any (fun g => g.contains '.') then none else gs.mapM parseHexGroup

/-- Modelled from the spec: the v6 side of the parsing collaborator —
groups split on `':'`, with at most one `::` gap (marked by empty parts:
leading, inner or trailing), expanded with enough zero words to reach the
8-word width; the gap must stand for at least one zero word. -/
def parseV6chars (cs : List Char) : Option (List Nat) :=
  let gs := splitCols cs
  let core : Option (List (List Char) × List (List Char) × Bool) :=
    match gs with
    | [[], [], []] => some ([], [], true)
    | [] :: [] :: rest =>
      if rest.any (fun g => g = []) ∨ rest = [] then none else some ([], rest, true)
    | _ =>
      if gs.getLast? = some [] then
        match gs.dropLast.getLast? with
        | some [] =>
          let front := gs.dropLast.dropLast
          if front.any (fun g => g = []) ∨ front = [] then none
          else some (front, [], true)
        | _ => none
      else
        match gs.splitOnP (fun g => g = []) with
        | [_] => some (gs, [], false)
        | [l, r] =>
          if l = [] ∨ r = [] then none else some (l, r, true)
        | _ => none
  match core with
  | none => none
  | some (l, r, gap) => do
    let wl ← parseGroupsNoDot l
    let wr ← parseGroups r
    if gap then
      if wl.length + wr.length ≤ 7 then
        some (wordsToBytes (wl ++ List.replicate (8 - wl.length - wr.length) 0 ++ wr))
      else none
    else
      if wl.length = 8 then some (wordsToBytes wl) else none

/-- First `'.'` or `':'` decides the family, as in `netip.ParseAddr`. -/
def firstSep : List Char → Option Char
  | [] => none
  | c :: cs => if c = '.' ∨ c = ':' then some c else firstSep cs

/-- Modelled from the spec: `parse(text) -> Address`, the parsing
collaborator used by `ProcessCIDR`/`ProcessRange` (`netip.ParseAddr`
without zone suffixes, which the spec does not model). -/
def parseAddr (s : String) : Option Addr :=
  match firstSep s.data with
  | some '.' => (parseV4chars s.data).map .v4
  | some ':' => (parseV6chars s.data).map .v6
  | _ => none

/-- Decimal bit-count field of a CIDR: digits, no leading zero, ≤ 3 chars. -/
def parseBits (cs : List Char) : Option Nat :=
  if cs ≠ [] ∧ cs.all (fun c => c.isDigit) ∧ cs.length ≤ 3 ∧
      (cs.length = 1 ∨ cs.getD 0 ' ' ≠ '0') then
    some (digitsVal cs)
  else none

/-- Split a character list at its last `'/'`. -/
def splitLastSlash (cs : List Char) : Option (List Char × List Char) :=
  match splitLastSlashRev cs.reverse with
  | some (r, l) => some (l.reverse, r.reverse)
  | none => none
where
  /-- Helper on the reversed list: everything before the first `'/'`. -/
  splitLastSlashRev : List Char → Option (List Char × List Char)
    | [] => none
    | c :: cs => if c = '/' then some ([], cs) else
        (splitLastSlashRev cs).map (fun p => (c :: p.1, p.2))

/-- Modelled from the spec: `netip.ParsePrefix` — address, `'/'`, decimal
bit count within the address width. -/
def parsePfx (s : String) : Option GoPfx :=
  match splitLastSlash s.data with
  | none => none
  | some (a, b) => do
    let addr ← parseAddr (String.mk a)
    let bits ← parseBits b
    if bits ≤ addr.bitLen then some ⟨addr, bits⟩ else none

/-! ## `ProcessCIDR` and `ProcessRange` (iprefix.go lines 196–385) -/

/-- Error values the package returns (`netip` parse errors and the two
`fmt.Errorf` cases of `ProcessRange`). -/
inductive GoErr
  | parseError
  | typeMismatch
  | orderError
deriving DecidableEq, Repr

/-- `ProcessCIDR` from iprefix.go.  The outer `Option` is `none` when the
call never returns (a non-terminating `genV6` loop); otherwise the pair
carries the pattern list and the error exactly as the Go function returns
them. -/
def ProcessCIDR (s : String) : Option (List String × Option GoErr) :=
  match parsePfx s with
  | none => some ([], some .parseError)
  | some p => (processPrefix p).map (fun ps => (ps, none))

/-- Count of leading equal words of two slices (`prefixBlock` loops of
`ProcessRange`); `n` is the word count, `w` reads word `i`. -/
def pbCount (w : Nat → Nat) (x : Nat → Nat) : Nat → Nat → Nat
  | _, 0 => 0
  | i, fuel+1 => if w i = x i then 1 + pbCount w x (i + 1) fuel else 0

/-- Emission of the v4 carry loop (lines 252–261): the formatted address,
with the last character replaced by `'*'` for non-final words. -/
def v4emitUp (ip : List Nat) (i : Nat) : String :=
  let rs := addrString4 ip
  if i < 3 then strDropRight rs 1 ++ "*" else rs

/-- Emission of the v4 borrow loop (lines 275–283): the formatted address,
with the last three characters replaced by `'*'` for non-final words. -/
def v4emitDown (ip : List Nat) (i : Nat) : String :=
  let rs := addrString4 ip
  if i < 3 then strDropRight rs 3 ++ "*" else rs

/-- Inner enumeration of the v4 carry loop: `j` from `vm` to 255, emitting
then incrementing octet `i` (wrapping); fuel `256 - vm` is its exact
iteration count. -/
def v4enumUp (i : Nat) : Nat → List Nat → List String × List Nat
  | 0, ip => ([], ip)
  | fuel+1, ip =>
    let pat := v4emitUp ip i
    let ip' := ip.set i ((ip.getD i 0 + 1) % 256)
    let (ps, ip'') := v4enumUp i fuel ip'
    (pat :: ps, ip'')

/-- Inner enumeration of the v4 borrow loop: `j` from `vm` down to 0,
emitting then decrementing octet `i` (wrapping); fuel `vm + 1` is its exact
iteration count. -/
def v4enumDown (i : Nat) : Nat → List Nat → List String × List Nat
  | 0, ip => ([], ip)
  | fuel+1, ip =>
    let pat := v4emitDown ip i
    let ip' := ip.set i ((ip.getD i 0 + 255) % 256)
    let (ps, ip'') := v4enumDown i fuel ip'
    (pat :: ps, ip'')

/-- Carry loop of the v4 range core (lines 241–262): walk `i` from 3 down
to `prefixBlock`, applying the pending carry, enumerating each nonzero word
up to its maximum. -/
def v4carryLoop (pb : Nat) : Nat → List Nat → Bool → List String × List Nat
  | 0, ip, carry =>
    let ip1 := if carry then ip.set 0 ((ip.getD 0 0 + 1) % 256) else ip
    ([], ip1)
  | i+1, ip, carry =>
    let ip1 := if carry then ip.set (i + 1) ((ip.getD (i + 1) 0 + 1) % 256) else ip
    if i + 1 = pb then ([], ip1)
    else
      let vm := ip1.getD (i + 1) 0
      if vm = 0 then v4carryLoop pb i ip1 carry
      else
        let (ps, ip2) := v4enumUp (i + 1) (256 - vm) ip1
        let (ps2, ip3) := v4carryLoop pb i ip2 true
        (ps ++ ps2, ip3)

/-- Borrow loop of the v4 range core (lines 263–285), symmetric to the
carry loop. -/
def v4borrowLoop (pb : Nat) : Nat → List Nat → Bool → List String × List Nat
  | 0, ip, borrow =>
    let ip1 := if borrow then ip.set 0 ((ip.getD 0 0 + 255) % 256) else ip
    ([], ip1)
  | i+1, ip, borrow =>
    let ip1 := if borrow then ip.set (i + 1) ((ip.getD (i + 1) 0 + 255) % 256) else ip
    if i + 1 = pb then ([], ip1)
    else
      let vm := ip1.getD (i + 1) 0
      if vm = 255 then v4borrowLoop pb i ip1 borrow
      else
        let (ps, ip2) := v4enumDown (i + 1) (vm + 1) ip1
        let (ps2, ip3) := v4borrowLoop pb i ip2 true
        (ps ++ ps2, ip3)

/-- The v4 branch of `ProcessRange` (lines 231–289). -/
def rangeV4 (ip1 ip2 : List Nat) : List String :=
  let pb := pbCount (fun i => ip1.getD i 0) (fun i => ip2.getD i 0) 0 4
  let (psC, ip1') := v4carryLoop pb 3 ip1 false
  let (psB, ip2') := v4borrowLoop pb 3 ip2 false
  let pb' := if 0 < pb ∧ ip1'.getD pb 0 = 0 ∧ ip2'.getD pb 0 = 255 then pb - 1 else pb
  psC ++ psB ++ genV4 ip1' pb' (ip1'.getD pb' 0) (ip2'.getD pb' 0)

/-- Inner enumeration of the v6 carry loop (lines 313–335): `j` counts up
as a Go `int`, the word value `vm` wraps as a `uint16`; 4-in-6 switches to
256-unit steps on aligned values, other non-final words expand recursively
through `processPrefix`. -/
def v6enumUp (is4In6 : Bool) (i : Nat) :
    Nat → Nat → Nat → Nat → List Nat → Option (List String × List Nat)
  | 0, _, _, _, _ => none
  | fuel+1, j, vm, step, ip =>
    if j < 65536 then
      let rs := addrString16 ip
      if is4In6 then
        let step' := if step = 1 ∧ j % 256 = 0 then 256 else step
        let rs' := if step' = 256 then strDropRight rs 1 ++ "*" else rs
        let vm' := (vm + step') % 65536
        (v6enumUp is4In6 i fuel (j + step') vm' step' (setbeUint16 ip i vm')).map
          (fun r => (rs' :: r.1, r.2))
      else if i < 7 then
        match processPrefix ⟨.v6 ip, 16 * (i + 1)⟩ with
        | none => none
        | some ipri =>
          let vm' := (vm + step) % 65536
          (v6enumUp is4In6 i fuel (j + step) vm' step (setbeUint16 ip i vm')).map
            (fun r => (ipri ++ r.1, r.2))
      else
        let vm' := (vm + step) % 65536
        (v6enumUp is4In6 i fuel (j + step) vm' step (setbeUint16 ip i vm')).map
          (fun r => (rs :: r.1, r.2))
    else some ([], ip)

/-- Inner enumeration of the v6 borrow loop (lines 351–373), symmetric:
`j` counts down as a Go `int` and may go negative, `vm` wraps as a
`uint16`. -/
def v6enumDown (is4In6 : Bool) (i : Nat) :
    Nat → Int → Nat → Nat → List Nat → Option (List String × List Nat)
  | 0, _, _, _, _ => none
  | fuel+1, j, vm, step, ip =>
    if 0 ≤ j then
      let rs := addrString16 ip
      if is4In6 then
        let step' := if step = 1 ∧ j % 256 = 255 then 256 else step
        let rs' := if step' = 256 then strDropRight rs 3 ++ "*" else rs
        let vm' := (vm + 65536 - step') % 65536
        (v6enumDown is4In6 i fuel (j - step') vm' step' (setbeUint16 ip i vm')).map
          (fun r => (rs' :: r.1, r.2))
      else if i < 7 then
        match processPrefix ⟨.v6 ip, 16 * (i + 1)⟩ with
        | none => none
        | some ipri =>
          let vm' := (vm + 65536 - step) % 65536
          (v6enumDown is4In6 i fuel (j - step) vm' step (setbeUint16 ip i vm')).map
            (fun r => (ipri ++ r.1, r.2))
      else
        let vm' := (vm + 65536 - step) % 65536
        (v6enumDown is4In6 i fuel (j - step) vm' step (setbeUint16 ip i vm')).map
          (fun r => (rs :: r.1, r.2))
    else some ([], ip)

/-- Carry loop of the v6 range core (lines 300–337). -/
def v6carryLoop (is4In6 : Bool) (pb : Nat) : Nat → List Nat → Bool → Option (List String × List Nat)
  | 0, ip, carry =>
    let vm := beUint16 ip 0
    let ip1 := if carry then setbeUint16 ip 0 ((vm + 1) % 65536) else ip
    some ([], ip1)
  | i+1, ip, carry =>
    let vm := beUint16 ip (i + 1)
    let vm1 := if carry then (vm + 1) % 65536 else vm
    let ip1 := if carry then setbeUint16 ip (i + 1) vm1 else ip
    if i + 1 = pb then some ([], ip1)
    else if vm1 = 0 then v6carryLoop is4In6 pb i ip1 carry
    else
      match v6enumUp is4In6 (i + 1) 65537 vm1 vm1 1 ip1 with
      | none => none
      | some (ps, ip2) =>
        match v6carryLoop is4In6 pb i ip2 true with
        | none => none
        | some (ps2, ip3) => some (ps ++ ps2, ip3)

/-- Borrow loop of the v6 range core (lines 338–375). -/
def v6borrowLoop (is4In6 : Bool) (pb : Nat) : Nat → List Nat → Bool → Option (List String × List Nat)
  | 0, ip, borrow =>
    let vm := beUint16 ip 0
    let ip1 := if borrow then setbeUint16 ip 0 ((vm + 65535) % 65536) else ip
    some ([], ip1)
  | i+1, ip, borrow =>
    let vm := beUint16 ip (i + 1)
    let vm1 := if borrow then (vm + 65535) % 65536 else vm
    let ip1 := if borrow then setbeUint16 ip (i + 1) vm1 else ip
    if i + 1 = pb then some ([], ip1)
    else if vm1 = 65535 then v6borrowLoop is4In6 pb i ip1 borrow
    else
      match v6enumDown is4In6 (i + 1) 65537 (vm1 : Int) vm1 1 ip1 with
      | none => none
      | some (ps, ip2) =>
        match v6borrowLoop is4In6 pb i ip2 true with
        | none => none
        | some (ps2, ip3) => some (ps ++ ps2, ip3)

/-- The v6 branch of `ProcessRange` (lines 290–382). -/
def rangeV6 (ip1 ip2 : List Nat) : Option (List String) :=
  let is4In6 := is4In6bytes ip1
  let pb := pbCount (beUint16 ip1) (beUint16 ip2) 0 8
  match v6carryLoop is4In6 pb 7 ip1 false with
  | none => none
  | some (psC, ip1') =>
    match v6borrowLoop is4In6 pb 7 ip2 false with
    | none => none
    | some (psB, ip2') =>
      let pb' := if 0 < pb ∧ beUint16 ip1' pb = 0 ∧ beUint16 ip2' pb = 65535 then pb - 1 else pb
      (genV6 ip1' pb' (beUint16 ip1' pb') (beUint16 ip2' pb') is4In6).map
        (fun mid => psC ++ psB ++ mid)

/-- `ProcessRange` from iprefix.go.  The outer `Option` is `none` when the
call never returns; otherwise the pair carries the pattern list and the
error exactly as the Go function returns them (note that the equal-address
case returns the start string `s` exactly as given). -/
def ProcessRange (s e : String) : Option (List String × Option GoErr) :=
  match parseAddr s with
  | none => some ([], some .parseError)
  | some a1 =>
    match parseAddr e with
    | none => some ([], some .parseError)
    | some a2 =>
      if a1.bitLen ≠ a2.bitLen then some ([], some .typeMismatch)
      else if addrVal a2 < addrVal a1 then some ([], some .orderError)
      else if addrVal a1 = addrVal a2 then some ([s], none)
      else
        match a1, a2 with
        | .v4 ip1, .v4 ip2 => some (rangeV4 ip1 ip2, none)
        | .v6 ip1, .v6 ip2 => (rangeV6 ip1 ip2).map (fun ps => (ps, none))
        | _, _ => some ([], none)

/-! ## Pattern denotation

Modelled from the spec: what address set an emitted pattern stands for.
Spec §1: the patterns "together denote exactly the addresses in the range";
§3: "a Pattern denotes exactly the set of addresses obtained by holding all
fixed segments constant and letting the wildcarded word(s) range over their
full domain; singleton patterns (no wildcard) denote exactly one address".
Patterns are matched against the canonical textual form of an address (the
package emits block-list text entries): a pattern ending in `*` matches the
addresses whose canonical string starts with the pattern's fixed part, and
a pattern without a wildcard matches exactly the address whose canonical
string it equals. -/

/-- Matching of one emitted pattern against the canonical string of an
address. -/
def patMatches (pat : String) (addrStr : String) : Bool :=
  if pat.data.getLast? = some '*' then listHasPfx pat.data.dropLast addrStr.data
  else pat == addrStr

/-- An address is denoted by a pattern when the pattern matches its
canonical textual form. -/
def denotes (pat : String) (a : Addr) : Bool := patMatches pat (addrStringOf a)

/-- Membership in the address block of a CIDR: the `2^(width-bits)`
addresses sharing the prefix's first `bits` bits (same family). -/
def inBlock (p : GoPfx) (x : Addr) : Prop :=
  x.bitLen = p.addr.bitLen ∧
    addrVal x / 2 ^ (p.addr.bitLen - p.bits) = addrVal p.addr / 2 ^ (p.addr.bitLen - p.bits)

/-- Membership in a start–end range (same family, inclusive bounds). -/
def inRange (a b x : Addr) : Prop :=
  x.bitLen = a.bitLen ∧ addrVal a ≤ addrVal x ∧ addrVal x ≤ addrVal b

/-! ## Spec-side formulas for the scan parameters (claim C5)

These restate, following the spec's words, the closed forms the scanned
word index and value range are claimed to take; the theorems compare them
with what the code computes. -/

/-- Spec formula: `block = (bits - 1) / word_bits` under truncating
division, with `bits = 0` giving block 0. -/
def specBlock (wordBits bits : Nat) : Nat := if bits = 0 then 0 else (bits - 1) / wordBits

/-- Spec formula: `variable_bits = word_bits - (bits mod word_bits)` except
when `bits mod word_bits = 0` and `bits ≠ 0`, where it is 0. -/
def specVarBits (wordBits bits : Nat) : Nat :=
  if bits % wordBits = 0 ∧ bits ≠ 0 then 0 else wordBits - bits % wordBits

/-- Spec formula: `start_val = word[block] & (full_mask << variable_bits)`
in the word's native width. -/
def specSv (wordBits w bits : Nat) : Nat :=
  w &&& ((2 ^ wordBits - 1) <<< specVarBits wordBits bits) % 2 ^ wordBits

/-- Spec formula: `end_val = start_val + 2^variable_bits - 1` computed
modulo `2^word_bits`. -/
def specEv (wordBits w bits : Nat) : Nat :=
  (specSv wordBits w bits + 2 ^ specVarBits wordBits bits - 1) % 2 ^ wordBits

/-! ## Value views of v4 patterns -/

/-- Unsigned value of a v4 address from its four octets. -/
def v4val (a b c d : Nat) : Nat := ((a * 256 + b) * 256 + c) * 256 + d

/-- Decimal token of one octet followed by the `'.'` separator. -/
def tok (n : Nat) : List Char := decChars n ++ ['.']

/-- Wildcard v4 pattern fixing the octets `ws`: their dot-terminated
decimal tokens followed by `'*'`. -/
def pat4 (ws : List Nat) : String := String.mk ((ws.map tok).flatten ++ ['*'])

/-- The pattern `p` denotes, over v4 addresses, exactly the value interval
`[lo, hi]`. -/
def DenotesItv (p : String) (lo hi : Nat) : Prop :=
  ∀ x0 x1 x2 x3 : Nat, x0 < 256 → x1 < 256 → x2 < 256 → x3 < 256 →
    (denotes p (.v4 [x0, x1, x2, x3]) = true ↔ lo ≤ v4val x0 x1 x2 x3 ∧ v4val x0 x1 x2 x3 ≤ hi)

/-- Ascending chain of nonempty intervals below `hi`, starting at `lo` or
later. -/
def AscItv : Nat → Nat → List (Nat × Nat) → Prop
  | _, _, [] => True
  | lo, hi, (a, b) :: rest => lo ≤ a ∧ a ≤ b ∧ b ≤ hi ∧ AscItv (b + 1) hi rest

/-- Error condition of `ProcessRange` as the claim states it: a parse
failure on either input, differing bit widths, or `start > end` in unsigned
big-endian numeric order. -/
def errCond (s e : String) : Prop :=
  parseAddr s = none ∨ parseAddr e = none ∨
    ∃ a1 a2, parseAddr s = some a1 ∧ parseAddr e = some a2 ∧
      (a1.bitLen ≠ a2.bitLen ∨ addrVal a2 < addrVal a1)

/-! # Theorems -/


lemma mkApp (xs ys : List Char) : String.mk xs ++ String.mk ys = String.mk (xs ++ ys) := rfl

lemma listHasPfx_iff : ∀ p s : List Char, listHasPfx p s = true ↔ ∃ t, s = p ++ t
  | [], s => by simp [listHasPfx]
  | c :: p, [] => by simp [listHasPfx]
  | c :: p, d :: s => by
    simp only [listHasPfx, Bool.and_eq_true, beq_iff_eq]
    constructor
    · rintro ⟨rfl, h⟩
      obtain ⟨t, rfl⟩ := (listHasPfx_iff p s).1 h
      exact ⟨t, rfl⟩
    · rintro ⟨t, ht⟩
      rw [List.cons_append, List.cons.injEq] at ht
      obtain ⟨rfl, rfl⟩ := ht
      exact ⟨rfl, (listHasPfx_iff p _).2 ⟨t, rfl⟩⟩

lemma decChars_digits : ∀ a, a < 256 → (decChars a).all (fun c => c.isDigit) = true := by decide

lemma digitsVal_decChars : ∀ a, a < 256 → digitsVal (decChars a) = a := by decide

lemma digitsSplit : ∀ xs ys u v : List Char,
    xs.all (fun c => c.isDigit) = true → ys.all (fun c => c.isDigit) = true →
    xs ++ '.' :: u = ys ++ '.' :: v → xs = ys ∧ u = v
  | [], [], u, v, _, _, h => by simpa using h
  | [], y :: ys, u, v, _, hy, h => by
    simp only [List.nil_append, List.cons_append, List.cons.injEq] at h
    obtain ⟨rfl, -⟩ := h
    simp at hy
  | x :: xs, [], u, v, hx, _, h => by
    simp only [List.nil_append, List.cons_append, List.cons.injEq] at h
    obtain ⟨rfl, -⟩ := h
    simp at hx
  | x :: xs, y :: ys, u, v, hx, hy, h => by
    simp only [List.cons_append, List.cons.injEq] at h
    obtain ⟨rfl, h2⟩ := h
    simp only [List.all_cons, Bool.and_eq_true] at hx hy
    obtain ⟨rfl, rfl⟩ := digitsSplit xs ys u v hx.2 hy.2 h2
    exact ⟨rfl, rfl⟩

lemma pfx_peel (w x : Nat) (hw : w < 256) (hx : x < 256) (p s : List Char) :
    (∃ r, tok x ++ s = tok w ++ (p ++ r)) ↔ (w = x ∧ ∃ r, s = p ++ r) := by
  constructor
  · rintro ⟨r, h⟩
    rw [tok, tok, List.append_assoc, List.append_assoc] at h
    simp only [List.singleton_append] at h
    obtain ⟨he, hu⟩ := digitsSplit _ _ _ _ (decChars_digits x hx) (decChars_digits w hw) h
    refine ⟨?_, r, hu⟩
    rw [← digitsVal_decChars w hw, ← digitsVal_decChars x hx, he]
  · rintro ⟨rfl, r, rfl⟩
    exact ⟨r, by simp [tok]⟩

lemma pat4_data (ws : List Nat) : (pat4 ws).data = (ws.map tok).flatten ++ ['*'] := rfl

lemma patMatches_pat4 (ws : List Nat) (s : String) :
    patMatches (pat4 ws) s = true ↔ ∃ r, s.data = (ws.map tok).flatten ++ r := by
  unfold patMatches
  rw [pat4_data, List.getLast?_concat, List.dropLast_concat]
  simp only [if_pos rfl]
  exact listHasPfx_iff _ _

lemma addrString4_data (a b c d : Nat) :
    (addrString4 [a, b, c, d]).data = tok a ++ (tok b ++ (tok c ++ decChars d)) := by
  simp [addrString4, decStr, tok, String.data_append, List.append_assoc]

lemma denotes_pat4_iff₁ (w0 x0 x1 x2 x3 : Nat) (hw0 : w0 < 256) (h0 : x0 < 256) :
    (denotes (pat4 [w0]) (.v4 [x0, x1, x2, x3]) = true) ↔ w0 = x0 := by
  rw [denotes, addrStringOf, patMatches_pat4]
  simp only [List.map_cons, List.map_nil, List.flatten, List.append_nil]
  rw [addrString4_data]
  constructor
  · rintro ⟨r, h⟩
    exact ((pfx_peel w0 x0 hw0 h0 [] _).1 ⟨r, by simpa using h⟩).1
  · rintro rfl
    exact ⟨tok x1 ++ (tok x2 ++ decChars x3), rfl⟩

lemma denotes_pat4_iff₂ (w0 w1 x0 x1 x2 x3 : Nat) (hw0 : w0 < 256) (hw1 : w1 < 256)
    (h0 : x0 < 256) (h1 : x1 < 256) :
    (denotes (pat4 [w0, w1]) (.v4 [x0, x1, x2, x3]) = true) ↔ (w0 = x0 ∧ w1 = x1) := by
  rw [denotes, addrStringOf, patMatches_pat4]
  simp only [List.map_cons, List.map_nil, List.flatten, List.append_nil]
  rw [addrString4_data]
  constructor
  · rintro ⟨r, h⟩
    obtain ⟨rfl, h2⟩ := (pfx_peel w0 x0 hw0 h0 (tok w1) _).1
      ⟨r, by simpa [List.append_assoc] using h⟩
    obtain ⟨rfl, -⟩ := (pfx_peel w1 x1 hw1 h1 [] _).1 (by simpa using h2)
    exact ⟨rfl, rfl⟩
  · rintro ⟨rfl, rfl⟩
    exact ⟨tok x2 ++ decChars x3, by simp⟩

lemma denotes_pat4_iff₃ (w0 w1 w2 x0 x1 x2 x3 : Nat) (hw0 : w0 < 256) (hw1 : w1 < 256)
    (hw2 : w2 < 256) (h0 : x0 < 256) (h1 : x1 < 256) (h2 : x2 < 256) :
    (denotes (pat4 [w0, w1, w2]) (.v4 [x0, x1, x2, x3]) = true) ↔
      (w0 = x0 ∧ w1 = x1 ∧ w2 = x2) := by
  rw [denotes, addrStringOf, patMatches_pat4]
  simp only [List.map_cons, List.map_nil, List.flatten, List.append_nil]
  rw [addrString4_data]
  constructor
  · rintro ⟨r, h⟩
    obtain ⟨rfl, h'⟩ := (pfx_peel w0 x0 hw0 h0 (tok w1 ++ tok w2) _).1
      ⟨r, by simpa [List.append_assoc] using h⟩
    obtain ⟨r', h''⟩ := h'
    obtain ⟨rfl, h3⟩ := (pfx_peel w1 x1 hw1 h1 (tok w2) _).1
      ⟨r', by simpa [List.append_assoc] using h''⟩
    obtain ⟨rfl, -⟩ := (pfx_peel w2 x2 hw2 h2 [] _).1 (by simpa using h3)
    exact ⟨rfl, rfl, rfl⟩
  · rintro ⟨rfl, rfl, rfl⟩
    exact ⟨decChars x3, by simp [List.append_assoc]⟩

lemma decChars_ne_star : ∀ d, d < 256 → (decChars d).getLast? ≠ some '*' := by decide

lemma decChars_ne_nil : ∀ d, d < 256 → decChars d ≠ [] := by decide

lemma addrString4_getLast (a b c d : Nat) (hd : d < 256) :
    (addrString4 [a, b, c, d]).data.getLast? ≠ some '*' := by
  rw [addrString4_data,
    List.getLast?_append_of_ne_nil _ (by simp [tok]),
    List.getLast?_append_of_ne_nil _ (by simp [tok]),
    List.getLast?_append_of_ne_nil _ (decChars_ne_nil d hd)]
  exact decChars_ne_star d hd

lemma addrString4_inj (w0 w1 w2 w3 x0 x1 x2 x3 : Nat)
    (hw0 : w0 < 256) (hw1 : w1 < 256) (hw2 : w2 < 256) (hw3 : w3 < 256)
    (hx0 : x0 < 256) (hx1 : x1 < 256) (hx2 : x2 < 256) (hx3 : x3 < 256) :
    addrString4 [w0, w1, w2, w3] = addrString4 [x0, x1, x2, x3] ↔
      (w0 = x0 ∧ w1 = x1 ∧ w2 = x2 ∧ w3 = x3) := by
  constructor
  · intro h
    have hd : (addrString4 [w0, w1, w2, w3]).data = (addrString4 [x0, x1, x2, x3]).data := by
      rw [h]
    rw [addrString4_data, addrString4_data] at hd
    simp only [tok, List.append_assoc, List.singleton_append] at hd
    obtain ⟨e0, hd⟩ := digitsSplit _ _ _ _ (decChars_digits w0 hw0) (decChars_digits x0 hx0) hd
    obtain ⟨e1, hd⟩ := digitsSplit _ _ _ _ (decChars_digits w1 hw1) (decChars_digits x1 hx1) hd
    obtain ⟨e2, hd⟩ := digitsSplit _ _ _ _ (decChars_digits w2 hw2) (decChars_digits x2 hx2) hd
    refine ⟨?_, ?_, ?_, ?_⟩
    · rw [← digitsVal_decChars w0 hw0, ← digitsVal_decChars x0 hx0, e0]
    · rw [← digitsVal_decChars w1 hw1, ← digitsVal_decChars x1 hx1, e1]
    · rw [← digitsVal_decChars w2 hw2, ← digitsVal_decChars x2 hx2, e2]
    · rw [← digitsVal_decChars w3 hw3, ← digitsVal_decChars x3 hx3, hd]
  · rintro ⟨rfl, rfl, rfl, rfl⟩
    rfl

lemma denotes_exact_iff (w0 w1 w2 w3 x0 x1 x2 x3 : Nat)
    (hw0 : w0 < 256) (hw1 : w1 < 256) (hw2 : w2 < 256) (hw3 : w3 < 256)
    (hx0 : x0 < 256) (hx1 : x1 < 256) (hx2 : x2 < 256) (hx3 : x3 < 256) :
    (denotes (addrString4 [w0, w1, w2, w3]) (.v4 [x0, x1, x2, x3]) = true) ↔
      (w0 = x0 ∧ w1 = x1 ∧ w2 = x2 ∧ w3 = x3) := by
  rw [denotes, addrStringOf, patMatches, if_neg (addrString4_getLast w0 w1 w2 w3 hw3),
    beq_iff_eq]
  exact addrString4_inj w0 w1 w2 w3 x0 x1 x2 x3 hw0 hw1 hw2 hw3 hx0 hx1 hx2 hx3

lemma ascItv_mono : ∀ itvs : List (Nat × Nat), ∀ lo hi lo' hi', lo' ≤ lo → hi ≤ hi' →
    AscItv lo hi itvs → AscItv lo' hi' itvs
  | [], _, _, _, _, _, _, _ => trivial
  | (a, b) :: rest, lo, hi, lo', hi', hl, hh, hc => by
    obtain ⟨h1, h2, h3, h4⟩ := hc
    exact ⟨by omega, h2, by omega, ascItv_mono rest (b + 1) hi (b + 1) hi' le_rfl hh h4⟩

lemma ascItv_append : ∀ l1 l2 : List (Nat × Nat), ∀ lo mid hi, lo ≤ mid + 1 → mid ≤ hi →
    AscItv lo mid l1 → AscItv (mid + 1) hi l2 → AscItv lo hi (l1 ++ l2)
  | [], l2, lo, mid, hi, hlm, hmh, _, h2 => by
    simpa using ascItv_mono l2 (mid + 1) hi lo hi hlm le_rfl h2
  | (a, b) :: rest, l2, lo, mid, hi, hlm, hmh, h1, h2 => by
    obtain ⟨g1, g2, g3, g4⟩ := h1
    exact ⟨g1, g2, by omega, ascItv_append rest l2 (b + 1) mid hi (by omega) hmh g4 h2⟩

lemma forall2_exists_right {α β : Type} {R : α → β → Prop} :
    ∀ {l1 : List α} {l2 : List β}, List.Forall₂ R l1 l2 → ∀ a ∈ l1, ∃ b ∈ l2, R a b := by
  intro l1 l2 h
  induction h with
  | nil => intro a ha; simp at ha
  | cons hr _ ih =>
    intro a ha
    rcases List.mem_cons.1 ha with rfl | ha
    · exact ⟨_, List.mem_cons_self _ _, hr⟩
    · obtain ⟨b, hb, hrb⟩ := ih a ha
      exact ⟨b, List.mem_cons_of_mem _ hb, hrb⟩

/-- Disjointness relation used by `PairwiseDisjointV4`. -/
def DisRel (p q : String) : Prop :=
  ∀ x : List Nat, x.length = 4 → (∀ b ∈ x, b < 256) →
    ¬(denotes p (.v4 x) = true ∧ denotes q (.v4 x) = true)

lemma disRel_of_itv {p q : String} {a b c d : Nat} (hp : DenotesItv p a b)
    (hq : DenotesItv q c d) (hlt : b < c ∨ d < a) : DisRel p q := by
  intro x hx hb
  match x, hx with
  | [x0, x1, x2, x3], _ =>
    have b0 : x0 < 256 := hb x0 (by simp)
    have b1 : x1 < 256 := hb x1 (by simp)
    have b2 : x2 < 256 := hb x2 (by simp)
    have b3 : x3 < 256 := hb x3 (by simp)
    rintro ⟨h1, h2⟩
    have i1 := (hp x0 x1 x2 x3 b0 b1 b2 b3).1 h1
    have i2 := (hq x0 x1 x2 x3 b0 b1 b2 b3).1 h2
    omega

/-- Cross-chunk disjointness from interval chains with separated ranges. -/
lemma cross_disjoint {ps qs : List String} {itvsP itvsQ : List (Nat × Nat)}
    (hfp : List.Forall₂ (fun p i => DenotesItv p i.1 i.2) ps itvsP)
    (hfq : List.Forall₂ (fun p i => DenotesItv p i.1 i.2) qs itvsQ)
    {hiP loQ : Nat} (hp : ∀ i ∈ itvsP, i.1 ≤ i.2 ∧ i.2 ≤ hiP)
    (hq : ∀ i ∈ itvsQ, loQ ≤ i.1) (hsep : hiP < loQ) :
    ∀ p ∈ ps, ∀ q ∈ qs, DisRel p q := by
  intro p hpm q hqm
  obtain ⟨ip, hip, hrp⟩ := forall2_exists_right hfp p hpm
  obtain ⟨iq, hiq, hrq⟩ := forall2_exists_right hfq q hqm
  exact disRel_of_itv hrp hrq (Or.inl (by have := hp ip hip; have := hq iq hiq; omega))

/-- `genV4go` unrolled as a map over the enumerated values. -/
lemma genV4go_spec (block ev : Nat) : ∀ fuel i ip, i + fuel = ev + 1 →
    genV4go block ev fuel i ip =
      (List.range' i fuel).map
        (fun v => genV4str (ip.set block v) block ++ (if block < 3 then "*" else ""))
  | 0, i, ip, h => by simp [genV4go]
  | fuel+1, i, ip, h => by
    rw [genV4go, List.range'_succ, List.map_cons]
    by_cases hie : i = ev
    · subst hie
      have : fuel = 0 := by omega
      subst this
      simp
    · rw [if_neg hie, genV4go_spec block ev fuel (i + 1) (ip.set block i) (by omega)]
      congr 1
      apply List.map_congr_left
      intro v hv
      rw [List.set_set]

lemma genV4_spec (ip : List Nat) (block sv ev : Nat) (h : sv ≤ ev) :
    genV4 ip block sv ev =
      (List.range' sv (ev + 1 - sv)).map
        (fun v => genV4str (ip.set block v) block ++ (if block < 3 then "*" else "")) := by
  rw [genV4, if_pos h]
  exact genV4go_spec block ev _ sv ip (by omega)

lemma disRel_symm {p q : String} (h : DisRel p q) : DisRel q p := by
  intro x hx hb hc
  exact h x hx hb ⟨hc.2, hc.1⟩

lemma pairwise_disRel_of_reverse {ps : List String} (h : ps.reverse.Pairwise DisRel) :
    ps.Pairwise DisRel := by
  rw [← List.pairwise_reverse]
  exact h.imp disRel_symm

lemma genV4str_block0 (v a1 a2 a3 : Nat) :
    genV4str [v, a1, a2, a3] 0 ++ "*" = pat4 [v] := by
  show (("" ++ decStr v ++ ".") ++ "*" : String) = pat4 [v]
  apply String.ext
  simp [decStr, pat4, tok, String.data_append]

lemma genV4str_block1 (a0 v a2 a3 : Nat) :
    genV4str [a0, v, a2, a3] 1 ++ "*" = pat4 [a0, v] := by
  show (("" ++ decStr a0 ++ "." ++ decStr v ++ ".") ++ "*" : String) = pat4 [a0, v]
  apply String.ext
  simp [decStr, pat4, tok, String.data_append]

lemma genV4str_block2 (a0 a1 v a3 : Nat) :
    genV4str [a0, a1, v, a3] 2 ++ "*" = pat4 [a0, a1, v] := by
  show (("" ++ decStr a0 ++ "." ++ decStr a1 ++ "." ++ decStr v ++ ".") ++ "*" : String) =
    pat4 [a0, a1, v]
  apply String.ext
  simp [decStr, pat4, tok, String.data_append]

lemma genV4str_block3 (a0 a1 a2 v : Nat) :
    genV4str [a0, a1, a2, v] 3 = addrString4 [a0, a1, a2, v] := by
  show ("" ++ decStr a0 ++ "." ++ decStr a1 ++ "." ++ decStr a2 ++ "." ++ decStr v ++ "" : String) =
    addrString4 [a0, a1, a2, v]
  apply String.ext
  simp [decStr, addrString4, String.data_append]

lemma divInterval (P x q : Nat) (hP : 0 < P) : (q * P ≤ x ∧ x < q * P + P) ↔ x / P = q := by
  constructor
  · rintro ⟨h1, h2⟩
    have ha : q ≤ x / P := (Nat.le_div_iff_mul_le hP).2 h1
    have hb : x / P < q + 1 := (Nat.div_lt_iff_lt_mul hP).2 (by
      calc x < q * P + P := h2
        _ = (q + 1) * P := by ring)
    omega
  · rintro rfl
    refine ⟨Nat.div_mul_le_self x P, ?_⟩
    have := (Nat.div_lt_iff_lt_mul hP).1 (Nat.lt_succ_self (x / P))
    calc x < (x / P + 1) * P := this
      _ = x / P * P + P := by ring

lemma mulAddCancel (K u r u' r' : Nat) (hr : r < K) (hr' : r' < K) :
    u * K + r = u' * K + r' ↔ u = u' ∧ r = r' := by
  constructor
  · intro h
    have h1 : (u * K + r) / K = u := by
      rw [Nat.mul_comm u K, Nat.mul_add_div (by omega), Nat.div_eq_of_lt hr]
      omega
    have h2 : (u' * K + r') / K = u' := by
      rw [Nat.mul_comm u' K, Nat.mul_add_div (by omega), Nat.div_eq_of_lt hr']
      omega
    rw [h] at h1
    rw [h2] at h1
    subst h1
    exact ⟨rfl, Nat.add_left_cancel h⟩
  · rintro ⟨rfl, rfl⟩; rfl

set_option maxRecDepth 100000 in
lemma maskDiv8 : ∀ vb, vb ≤ 8 → ∀ a, a < 256 →
    a &&& (0xff <<< vb) % 256 = a / 2 ^ vb * 2 ^ vb := by decide

lemma split256 (P K u r : Nat) (hPK : K * P = 256) (hP : 0 < P) :
    (u * 256 + r) / P = u * K + r / P := by
  rw [← hPK]
  have h1 : u * (K * P) + r = P * (u * K) + r := by ring
  rw [h1, Nat.mul_add_div hP]

lemma scanBlock_eq (wb m : Nat) (hwb : 2 ≤ wb) :
    scanBlock wb m = if m = 0 then 0 else (m - 1) / wb := by
  cases m with
  | zero =>
    rw [if_pos rfl, scanBlock]
    have h1 : ((0 : Nat) : Int) - 1 = Int.negSucc 0 := rfl
    rw [h1]
    have h2 : Int.tdiv (Int.negSucc 0) (wb : Int) = -((1 / wb : Nat) : Int) := rfl
    rw [h2, Nat.div_eq_of_lt (by omega)]
    rfl
  | succ k =>
    rw [if_neg (by omega), scanBlock]
    have h1 : ((k + 1 : Nat) : Int) - 1 = (k : Int) := by push_cast; ring
    rw [h1]
    have h2 : Int.tdiv (k : Int) (wb : Int) = ((k / wb : Nat) : Int) := rfl
    rw [h2, Int.toNat_natCast]
    simp

lemma scanVarBits_eq (m : Nat) (hm : 1 ≤ m) (hm' : m ≤ 32) :
    scanVarBits 8 m = 8 * (scanBlock 8 m + 1) - m := by
  rw [scanBlock_eq 8 m (by omega), if_neg (by omega)]
  unfold scanVarBits
  dsimp only
  split_ifs with h <;> omega

lemma addrVal4 (x0 x1 x2 x3 : Nat) : addrVal (.v4 [x0, x1, x2, x3]) = v4val x0 x1 x2 x3 := by
  simp [addrVal, Addr.bytes, v4val, List.foldl]
  ring

lemma inBlock4_iff (a0 a1 a2 a3 m x0 x1 x2 x3 : Nat) :
    inBlock ⟨.v4 [a0, a1, a2, a3], m⟩ (.v4 [x0, x1, x2, x3]) ↔
      v4val x0 x1 x2 x3 / 2 ^ (32 - m) = v4val a0 a1 a2 a3 / 2 ^ (32 - m) := by
  rw [inBlock, addrVal4, addrVal4]
  simp [Addr.bitLen]


lemma blockVal0 (x0 x1 x2 x3 t : Nat) (h1 : x1 < 256) (h2 : x2 < 256) (h3 : x3 < 256) :
    v4val x0 x1 x2 x3 / 2 ^ (24 + t) = x0 / 2 ^ t := by
  rw [pow_add, ← Nat.div_div_eq_div_mul]
  congr 1
  unfold v4val
  omega

lemma blockVal1 (x0 x1 x2 x3 t : Nat) (h2 : x2 < 256) (h3 : x3 < 256) :
    v4val x0 x1 x2 x3 / 2 ^ (16 + t) = (x0 * 256 + x1) / 2 ^ t := by
  rw [pow_add, ← Nat.div_div_eq_div_mul]
  congr 1
  unfold v4val
  omega

lemma blockVal2 (x0 x1 x2 x3 t : Nat) (h3 : x3 < 256) :
    v4val x0 x1 x2 x3 / 2 ^ (8 + t) = ((x0 * 256 + x1) * 256 + x2) / 2 ^ t := by
  rw [pow_add, ← Nat.div_div_eq_div_mul]
  congr 1
  unfold v4val
  omega

lemma divEqSplit (P K U r U' r' : Nat) (hPK : K * P = 256) (hP : 0 < P)
    (hr : r < 256) (hr' : r' < 256) :
    (U * 256 + r) / P = (U' * 256 + r') / P ↔ (U = U' ∧ r / P = r' / P) := by
  rw [split256 P K U r hPK hP, split256 P K U' r' hPK hP]
  exact mulAddCancel K U (r / P) U' (r' / P)
    ((Nat.div_lt_iff_lt_mul hP).2 (by rw [hPK]; exact hr))
    ((Nat.div_lt_iff_lt_mul hP).2 (by rw [hPK]; exact hr'))

lemma svRoom (a vb : Nat) (ha : a < 256) (hvb : vb ≤ 8) :
    a / 2 ^ vb * 2 ^ vb + 2 ^ vb ≤ 256 := by
  have hP : (0 : Nat) < 2 ^ vb := pow_pos (by norm_num) vb
  have hKP : 2 ^ (8 - vb) * 2 ^ vb = 256 := by
    have h8 : 8 - vb + vb = 8 := by omega
    rw [← pow_add, h8]
    norm_num
  have h1 : a / 2 ^ vb < 2 ^ (8 - vb) := by
    rw [Nat.div_lt_iff_lt_mul hP, hKP]
    exact ha
  calc a / 2 ^ vb * 2 ^ vb + 2 ^ vb = (a / 2 ^ vb + 1) * 2 ^ vb := by ring
    _ ≤ 2 ^ (8 - vb) * 2 ^ vb := Nat.mul_le_mul_right _ (by omega)
    _ = 256 := hKP


lemma C1case0 (a0 a1 a2 a3 x0 x1 x2 x3 m : Nat)
    (ha0 : a0 < 256) (ha1 : a1 < 256) (ha2 : a2 < 256) (ha3 : a3 < 256)
    (hx0 : x0 < 256) (hx1 : x1 < 256) (hx2 : x2 < 256) (hx3 : x3 < 256)
    (hm1 : 1 ≤ m) (hm8 : m ≤ 8) :
    (∃ pat ∈ genV4 [a0, a1, a2, a3] 0 (v4sv [a0, a1, a2, a3] m) (v4ev [a0, a1, a2, a3] m),
        denotes pat (.v4 [x0, x1, x2, x3]) = true) ↔
      v4val x0 x1 x2 x3 / 2 ^ (32 - m) = v4val a0 a1 a2 a3 / 2 ^ (32 - m) := by
  have hb : scanBlock 8 m = 0 := by
    rw [scanBlock_eq 8 m (by omega), if_neg (by omega)]
    omega
  have hvb : scanVarBits 8 m = 8 - m := by
    have h := scanVarBits_eq m hm1 (by omega)
    rw [hb] at h
    omega
  have hP : (0 : Nat) < 2 ^ (8 - m) := pow_pos (by norm_num) _
  have hsv : v4sv [a0, a1, a2, a3] m = a0 / 2 ^ (8 - m) * 2 ^ (8 - m) := by
    rw [v4sv, hb, hvb]
    simpa using maskDiv8 (8 - m) (by omega) a0 ha0
  have hroom := svRoom a0 (8 - m) ha0 (by omega)
  have hlt256 : 2 ^ (8 - m) < 256 := by
    have : (2 : Nat) ^ (8 - m) ≤ 2 ^ 7 := Nat.pow_le_pow_right (by norm_num) (by omega)
    omega
  have hev : v4ev [a0, a1, a2, a3] m =
      a0 / 2 ^ (8 - m) * 2 ^ (8 - m) + 2 ^ (8 - m) - 1 := by
    rw [v4ev, hsv, hvb, Nat.shiftLeft_eq, one_mul, Nat.mod_eq_of_lt hlt256]
    omega
  rw [hsv, hev, genV4_spec _ 0 _ _ (by omega)]
  have hcnt : a0 / 2 ^ (8 - m) * 2 ^ (8 - m) + 2 ^ (8 - m) - 1 + 1 -
      a0 / 2 ^ (8 - m) * 2 ^ (8 - m) = 2 ^ (8 - m) := by omega
  rw [hcnt]
  simp only [List.mem_map, List.mem_range'_1]
  have h32 : 32 - m = 24 + (8 - m) := by omega
  rw [h32, blockVal0 x0 x1 x2 x3 _ hx1 hx2 hx3, blockVal0 a0 a1 a2 a3 _ ha1 ha2 ha3]
  constructor
  · rintro ⟨pat, ⟨v, ⟨hv1, hv2⟩, rfl⟩, hden⟩
    rw [show (genV4str ([a0, a1, a2, a3].set 0 v) 0 ++ if (0 : Nat) < 3 then "*" else "") =
        pat4 [v] from genV4str_block0 v a1 a2 a3] at hden
    have hv256 : v < 256 := by omega
    have heq := (denotes_pat4_iff₁ v x0 x1 x2 x3 hv256 hx0).1 hden
    exact (divInterval _ x0 (a0 / 2 ^ (8 - m)) hP).1 ⟨by omega, by omega⟩
  · intro hr
    refine ⟨_, ⟨x0, ⟨?_, ?_⟩, rfl⟩, ?_⟩
    · have := (divInterval _ x0 (a0 / 2 ^ (8 - m)) hP).2 hr
      omega
    · have := (divInterval _ x0 (a0 / 2 ^ (8 - m)) hP).2 hr
      omega
    · rw [show (genV4str ([a0, a1, a2, a3].set 0 x0) 0 ++ if (0 : Nat) < 3 then "*" else "") =
          pat4 [x0] from genV4str_block0 x0 a1 a2 a3]
      exact (denotes_pat4_iff₁ x0 x0 x1 x2 x3 hx0 hx0).2 rfl

lemma C1case1 (a0 a1 a2 a3 x0 x1 x2 x3 m : Nat)
    (ha0 : a0 < 256) (ha1 : a1 < 256) (ha2 : a2 < 256) (ha3 : a3 < 256)
    (hx0 : x0 < 256) (hx1 : x1 < 256) (hx2 : x2 < 256) (hx3 : x3 < 256)
    (hm1 : 9 ≤ m) (hm8 : m ≤ 16) :
    (∃ pat ∈ genV4 [a0, a1, a2, a3] 1 (v4sv [a0, a1, a2, a3] m) (v4ev [a0, a1, a2, a3] m),
        denotes pat (.v4 [x0, x1, x2, x3]) = true) ↔
      v4val x0 x1 x2 x3 / 2 ^ (32 - m) = v4val a0 a1 a2 a3 / 2 ^ (32 - m) := by
  have hb : scanBlock 8 m = 1 := by
    rw [scanBlock_eq 8 m (by omega), if_neg (by omega)]
    omega
  have hvb : scanVarBits 8 m = 16 - m := by
    have h := scanVarBits_eq m (by omega) (by omega)
    rw [hb] at h
    omega
  have hP : (0 : Nat) < 2 ^ (16 - m) := pow_pos (by norm_num) _
  have hsv : v4sv [a0, a1, a2, a3] m = a1 / 2 ^ (16 - m) * 2 ^ (16 - m) := by
    rw [v4sv, hb, hvb]
    simpa using maskDiv8 (16 - m) (by omega) a1 ha1
  have hroom := svRoom a1 (16 - m) ha1 (by omega)
  have hlt256 : 2 ^ (16 - m) < 256 := by
    have : (2 : Nat) ^ (16 - m) ≤ 2 ^ 7 := Nat.pow_le_pow_right (by norm_num) (by omega)
    omega
  have hev : v4ev [a0, a1, a2, a3] m =
      a1 / 2 ^ (16 - m) * 2 ^ (16 - m) + 2 ^ (16 - m) - 1 := by
    rw [v4ev, hsv, hvb, Nat.shiftLeft_eq, one_mul, Nat.mod_eq_of_lt hlt256]
    omega
  rw [hsv, hev, genV4_spec _ 1 _ _ (by omega)]
  have hcnt : a1 / 2 ^ (16 - m) * 2 ^ (16 - m) + 2 ^ (16 - m) - 1 + 1 -
      a1 / 2 ^ (16 - m) * 2 ^ (16 - m) = 2 ^ (16 - m) := by omega
  rw [hcnt]
  simp only [List.mem_map, List.mem_range'_1]
  have h32 : 32 - m = 16 + (16 - m) := by omega
  have hKP : 2 ^ (8 - (16 - m)) * 2 ^ (16 - m) = 256 := by
    have h8 : 8 - (16 - m) + (16 - m) = 8 := by omega
    rw [← pow_add, h8]
    norm_num
  rw [h32, blockVal1 x0 x1 x2 x3 _ hx2 hx3, blockVal1 a0 a1 a2 a3 _ ha2 ha3,
    divEqSplit (2 ^ (16 - m)) (2 ^ (8 - (16 - m))) x0 x1 a0 a1 hKP hP hx1 ha1]
  constructor
  · rintro ⟨pat, ⟨v, ⟨hv1, hv2⟩, rfl⟩, hden⟩
    rw [show (genV4str ([a0, a1, a2, a3].set 1 v) 1 ++ if (1 : Nat) < 3 then "*" else "") =
        pat4 [a0, v] from genV4str_block1 a0 v a2 a3] at hden
    have hv256 : v < 256 := by omega
    have heq := (denotes_pat4_iff₂ a0 v x0 x1 x2 x3 ha0 hv256 hx0 hx1).1 hden
    refine ⟨heq.1.symm, ?_⟩
    exact (divInterval _ x1 (a1 / 2 ^ (16 - m)) hP).1 ⟨by omega, by omega⟩
  · rintro ⟨hU, hr⟩
    refine ⟨_, ⟨x1, ⟨?_, ?_⟩, rfl⟩, ?_⟩
    · have := (divInterval _ x1 (a1 / 2 ^ (16 - m)) hP).2 hr
      omega
    · have := (divInterval _ x1 (a1 / 2 ^ (16 - m)) hP).2 hr
      omega
    · rw [show (genV4str ([a0, a1, a2, a3].set 1 x1) 1 ++ if (1 : Nat) < 3 then "*" else "") =
          pat4 [a0, x1] from genV4str_block1 a0 x1 a2 a3]
      exact (denotes_pat4_iff₂ a0 x1 x0 x1 x2 x3 ha0 (by omega) hx0 hx1).2 ⟨hU.symm, rfl⟩


lemma C1case2 (a0 a1 a2 a3 x0 x1 x2 x3 m : Nat)
    (ha0 : a0 < 256) (ha1 : a1 < 256) (ha2 : a2 < 256) (ha3 : a3 < 256)
    (hx0 : x0 < 256) (hx1 : x1 < 256) (hx2 : x2 < 256) (hx3 : x3 < 256)
    (hm1 : 17 ≤ m) (hm8 : m ≤ 24) :
    (∃ pat ∈ genV4 [a0, a1, a2, a3] 2 (v4sv [a0, a1, a2, a3] m) (v4ev [a0, a1, a2, a3] m),
        denotes pat (.v4 [x0, x1, x2, x3]) = true) ↔
      v4val x0 x1 x2 x3 / 2 ^ (32 - m) = v4val a0 a1 a2 a3 / 2 ^ (32 - m) := by
  have hb : scanBlock 8 m = 2 := by
    rw [scanBlock_eq 8 m (by omega), if_neg (by omega)]
    omega
  have hvb : scanVarBits 8 m = 24 - m := by
    have h := scanVarBits_eq m (by omega) (by omega)
    rw [hb] at h
    omega
  have hP : (0 : Nat) < 2 ^ (24 - m) := pow_pos (by norm_num) _
  have hsv : v4sv [a0, a1, a2, a3] m = a2 / 2 ^ (24 - m) * 2 ^ (24 - m) := by
    rw [v4sv, hb, hvb]
    simpa using maskDiv8 (24 - m) (by omega) a2 ha2
  have hroom := svRoom a2 (24 - m) ha2 (by omega)
  have hlt256 : 2 ^ (24 - m) < 256 := by
    have : (2 : Nat) ^ (24 - m) ≤ 2 ^ 7 := Nat.pow_le_pow_right (by norm_num) (by omega)
    omega
  have hev : v4ev [a0, a1, a2, a3] m =
      a2 / 2 ^ (24 - m) * 2 ^ (24 - m) + 2 ^ (24 - m) - 1 := by
    rw [v4ev, hsv, hvb, Nat.shiftLeft_eq, one_mul, Nat.mod_eq_of_lt hlt256]
    omega
  rw [hsv, hev, genV4_spec _ 2 _ _ (by omega)]
  have hcnt : a2 / 2 ^ (24 - m) * 2 ^ (24 - m) + 2 ^ (24 - m) - 1 + 1 -
      a2 / 2 ^ (24 - m) * 2 ^ (24 - m) = 2 ^ (24 - m) := by omega
  rw [hcnt]
  simp only [List.mem_map, List.mem_range'_1]
  have h32 : 32 - m = 8 + (24 - m) := by omega
  have hKP : 2 ^ (8 - (24 - m)) * 2 ^ (24 - m) = 256 := by
    have h8 : 8 - (24 - m) + (24 - m) = 8 := by omega
    rw [← pow_add, h8]
    norm_num
  rw [h32, blockVal2 x0 x1 x2 x3 _ hx3, blockVal2 a0 a1 a2 a3 _ ha3,
    divEqSplit (2 ^ (24 - m)) (2 ^ (8 - (24 - m))) (x0 * 256 + x1) x2
      (a0 * 256 + a1) a2 hKP hP hx2 ha2]
  constructor
  · rintro ⟨pat, ⟨v, ⟨hv1, hv2⟩, rfl⟩, hden⟩
    rw [show (genV4str ([a0, a1, a2, a3].set 2 v) 2 ++ if (2 : Nat) < 3 then "*" else "") =
        pat4 [a0, a1, v] from genV4str_block2 a0 a1 v a3] at hden
    have hv256 : v < 256 := by omega
    have heq := (denotes_pat4_iff₃ a0 a1 v x0 x1 x2 x3 ha0 ha1 hv256 hx0 hx1 hx2).1 hden
    obtain ⟨e0, e1, e2⟩ := heq
    refine ⟨by omega, ?_⟩
    exact (divInterval _ x2 (a2 / 2 ^ (24 - m)) hP).1 ⟨by omega, by omega⟩
  · rintro ⟨hU, hr⟩
    have he0 : x0 = a0 ∧ x1 = a1 := by omega
    refine ⟨_, ⟨x2, ⟨?_, ?_⟩, rfl⟩, ?_⟩
    · have := (divInterval _ x2 (a2 / 2 ^ (24 - m)) hP).2 hr
      omega
    · have := (divInterval _ x2 (a2 / 2 ^ (24 - m)) hP).2 hr
      omega
    · rw [show (genV4str ([a0, a1, a2, a3].set 2 x2) 2 ++ if (2 : Nat) < 3 then "*" else "") =
          pat4 [a0, a1, x2] from genV4str_block2 a0 a1 x2 a3]
      exact (denotes_pat4_iff₃ a0 a1 x2 x0 x1 x2 x3 ha0 ha1 (by omega) hx0 hx1 hx2).2
        ⟨he0.1.symm, he0.2.symm, rfl⟩

lemma C1case3 (a0 a1 a2 a3 x0 x1 x2 x3 m : Nat)
    (ha0 : a0 < 256) (ha1 : a1 < 256) (ha2 : a2 < 256) (ha3 : a3 < 256)
    (hx0 : x0 < 256) (hx1 : x1 < 256) (hx2 : x2 < 256) (hx3 : x3 < 256)
    (hm1 : 25 ≤ m) (hm8 : m ≤ 31) :
    (∃ pat ∈ genV4 [a0, a1, a2, a3] 3 (v4sv [a0, a1, a2, a3] m) (v4ev [a0, a1, a2, a3] m),
        denotes pat (.v4 [x0, x1, x2, x3]) = true) ↔
      v4val x0 x1 x2 x3 / 2 ^ (32 - m) = v4val a0 a1 a2 a3 / 2 ^ (32 - m) := by
  have hb : scanBlock 8 m = 3 := by
    rw [scanBlock_eq 8 m (by omega), if_neg (by omega)]
    omega
  have hvb : scanVarBits 8 m = 32 - m := by
    have h := scanVarBits_eq m (by omega) (by omega)
    rw [hb] at h
    omega
  have hP : (0 : Nat) < 2 ^ (32 - m) := pow_pos (by norm_num) _
  have hsv : v4sv [a0, a1, a2, a3] m = a3 / 2 ^ (32 - m) * 2 ^ (32 - m) := by
    rw [v4sv, hb, hvb]
    simpa using maskDiv8 (32 - m) (by omega) a3 ha3
  have hroom := svRoom a3 (32 - m) ha3 (by omega)
  have hlt256 : 2 ^ (32 - m) < 256 := by
    have : (2 : Nat) ^ (32 - m) ≤ 2 ^ 7 := Nat.pow_le_pow_right (by norm_num) (by omega)
    omega
  have hev : v4ev [a0, a1, a2, a3] m =
      a3 / 2 ^ (32 - m) * 2 ^ (32 - m) + 2 ^ (32 - m) - 1 := by
    rw [v4ev, hsv, hvb, Nat.shiftLeft_eq, one_mul, Nat.mod_eq_of_lt hlt256]
    omega
  rw [hsv, hev, genV4_spec _ 3 _ _ (by omega)]
  have hcnt : a3 / 2 ^ (32 - m) * 2 ^ (32 - m) + 2 ^ (32 - m) - 1 + 1 -
      a3 / 2 ^ (32 - m) * 2 ^ (32 - m) = 2 ^ (32 - m) := by omega
  rw [hcnt]
  simp only [List.mem_map, List.mem_range'_1]
  have hKP : 2 ^ (8 - (32 - m)) * 2 ^ (32 - m) = 256 := by
    have h8 : 8 - (32 - m) + (32 - m) = 8 := by omega
    rw [← pow_add, h8]
    norm_num
  have hval : ∀ y0 y1 y2 y3 : Nat, v4val y0 y1 y2 y3 =
      ((y0 * 256 + y1) * 256 + y2) * 256 + y3 := fun _ _ _ _ => rfl
  rw [hval x0 x1 x2 x3, hval a0 a1 a2 a3,
    divEqSplit (2 ^ (32 - m)) (2 ^ (8 - (32 - m))) ((x0 * 256 + x1) * 256 + x2) x3
      ((a0 * 256 + a1) * 256 + a2) a3 hKP hP hx3 ha3]
  constructor
  · rintro ⟨pat, ⟨v, ⟨hv1, hv2⟩, rfl⟩, hden⟩
    rw [show (genV4str ([a0, a1, a2, a3].set 3 v) 3 ++ if (3 : Nat) < 3 then "*" else "") =
        addrString4 [a0, a1, a2, v] from by
          rw [show ([a0, a1, a2, a3].set 3 v) = [a0, a1, a2, v] from rfl]
          show genV4str [a0, a1, a2, v] 3 ++ "" = _
          rw [genV4str_block3]
          apply String.ext
          simp [String.data_append]] at hden
    have hv256 : v < 256 := by omega
    obtain ⟨e0, e1, e2, e3⟩ :=
      (denotes_exact_iff a0 a1 a2 v x0 x1 x2 x3 ha0 ha1 ha2 hv256 hx0 hx1 hx2 hx3).1 hden
    refine ⟨by omega, ?_⟩
    exact (divInterval _ x3 (a3 / 2 ^ (32 - m)) hP).1 ⟨by omega, by omega⟩
  · rintro ⟨hU, hr⟩
    have he0 : x0 = a0 ∧ x1 = a1 ∧ x2 = a2 := by omega
    refine ⟨_, ⟨x3, ⟨?_, ?_⟩, rfl⟩, ?_⟩
    · have := (divInterval _ x3 (a3 / 2 ^ (32 - m)) hP).2 hr
      omega
    · have := (divInterval _ x3 (a3 / 2 ^ (32 - m)) hP).2 hr
      omega
    · rw [show (genV4str ([a0, a1, a2, a3].set 3 x3) 3 ++ if (3 : Nat) < 3 then "*" else "") =
          addrString4 [a0, a1, a2, x3] from by
            rw [show ([a0, a1, a2, a3].set 3 x3) = [a0, a1, a2, x3] from rfl]
            show genV4str [a0, a1, a2, x3] 3 ++ "" = _
            rw [genV4str_block3]
            apply String.ext
            simp [String.data_append]]
      exact (denotes_exact_iff a0 a1 a2 x3 x0 x1 x2 x3 ha0 ha1 ha2 (by omega)
        hx0 hx1 hx2 hx3).2 ⟨he0.1.symm, he0.2.1.symm, he0.2.2.symm, rfl⟩


/-- C1 (corrected, amended): for every valid IPv4 CIDR prefix of bit length
`m ≤ 32`, the union of the address sets denoted by the patterns returned by
`processPrefix` (the core of `ProcessCIDR`) equals exactly the `2^(32-m)`
addresses of that block: an IPv4 address is denoted by some returned pattern
if and only if it lies in the block.  (The original claim also asserted this
for IPv6, where it fails; see the counterexample.) -/
theorem C1_v4_coverage_exact (a0 a1 a2 a3 m : Nat)
    (ha0 : a0 < 256) (ha1 : a1 < 256) (ha2 : a2 < 256) (ha3 : a3 < 256) (hm : m ≤ 32)
    (ps : List String) (hps : processPrefix ⟨.v4 [a0, a1, a2, a3], m⟩ = some ps)
    (x0 x1 x2 x3 : Nat) (hx0 : x0 < 256) (hx1 : x1 < 256) (hx2 : x2 < 256) (hx3 : x3 < 256) :
    (∃ pat ∈ ps, denotes pat (.v4 [x0, x1, x2, x3]) = true) ↔
      inBlock ⟨.v4 [a0, a1, a2, a3], m⟩ (.v4 [x0, x1, x2, x3]) := by
  rw [inBlock4_iff]
  by_cases hm32 : m = 32
  · subst hm32
    have hpp : processPrefix ⟨.v4 [a0, a1, a2, a3], 32⟩ =
        some [addrString4 [a0, a1, a2, a3]] := rfl
    rw [hpp, Option.some.injEq] at hps
    subst hps
    simp only [List.mem_singleton, exists_eq_left]
    rw [denotes_exact_iff a0 a1 a2 a3 x0 x1 x2 x3 ha0 ha1 ha2 ha3 hx0 hx1 hx2 hx3]
    have h0 : (32 : Nat) - 32 = 0 := rfl
    rw [h0, pow_zero, Nat.div_one, Nat.div_one]
    unfold v4val
    omega
  · have hpp : processPrefix ⟨.v4 [a0, a1, a2, a3], m⟩ =
        some (genV4 [a0, a1, a2, a3] (scanBlock 8 m)
          (v4sv [a0, a1, a2, a3] m) (v4ev [a0, a1, a2, a3] m)) := by
      rw [processPrefix, if_neg (by simpa [Addr.bitLen] using hm32)]
    rw [hpp, Option.some.injEq] at hps
    subst hps
    by_cases hm0 : m = 0
    · subst hm0
      have hb : scanBlock 8 0 = 0 := by decide
      have hvb : scanVarBits 8 0 = 8 := by decide
      have hsv : v4sv [a0, a1, a2, a3] 0 = 0 := by
        rw [v4sv, hb, hvb]
        have h := maskDiv8 8 le_rfl a0 ha0
        simpa [Nat.div_eq_of_lt ha0] using h
      have hev : v4ev [a0, a1, a2, a3] 0 = 255 := by
        rw [v4ev, hsv, hvb]
        decide
      rw [hsv, hev, genV4_spec _ _ _ _ (by omega)]
      simp only [List.mem_map, List.mem_range'_1]
      have hz : ∀ y0 y1 y2 y3 : Nat, y0 < 256 → y1 < 256 → y2 < 256 → y3 < 256 →
          v4val y0 y1 y2 y3 / 2 ^ (32 - 0) = 0 := by
        intro y0 y1 y2 y3 b0 b1 b2 b3
        apply Nat.div_eq_of_lt
        unfold v4val
        norm_num
        omega
      rw [hz x0 x1 x2 x3 hx0 hx1 hx2 hx3, hz a0 a1 a2 a3 ha0 ha1 ha2 ha3]
      constructor
      · intro _
        rfl
      · intro _
        refine ⟨_, ⟨x0, ⟨by omega, by omega⟩, rfl⟩, ?_⟩
        show denotes (genV4str ([a0, a1, a2, a3].set 0 x0) 0 ++
          if (0 : Nat) < 3 then "*" else "") (.v4 [x0, x1, x2, x3]) = true
        rw [show (genV4str ([a0, a1, a2, a3].set 0 x0) 0 ++ if (0 : Nat) < 3 then "*" else "") =
            pat4 [x0] from genV4str_block0 x0 a1 a2 a3]
        exact (denotes_pat4_iff₁ x0 x0 x1 x2 x3 hx0 hx0).2 rfl
    · have hb3 : scanBlock 8 m ≤ 3 := by
        rw [scanBlock_eq 8 m (by omega), if_neg hm0]
        omega
      have hbeq := scanBlock_eq 8 m (by omega)
      rw [if_neg hm0] at hbeq
      rcases (by omega : scanBlock 8 m = 0 ∨ scanBlock 8 m = 1 ∨ scanBlock 8 m = 2 ∨
          scanBlock 8 m = 3) with hb | hb | hb | hb <;> rw [hb]
      · exact C1case0 a0 a1 a2 a3 x0 x1 x2 x3 m ha0 ha1 ha2 ha3 hx0 hx1 hx2 hx3
          (by omega) (by omega)
      · exact C1case1 a0 a1 a2 a3 x0 x1 x2 x3 m ha0 ha1 ha2 ha3 hx0 hx1 hx2 hx3
          (by omega) (by omega)
      · exact C1case2 a0 a1 a2 a3 x0 x1 x2 x3 m ha0 ha1 ha2 ha3 hx0 hx1 hx2 hx3
          (by omega) (by omega)
      · exact C1case3 a0 a1 a2 a3 x0 x1 x2 x3 m ha0 ha1 ha2 ha3 hx0 hx1 hx2 hx3
          (by omega) (by omega)


/-- C1 counterexample: `ProcessCIDR "1::/96"` returns exactly the single
pattern `"1::*"`; that pattern denotes the address `1:0:0:3:4:5:6:7`
(canonical form `"1::3:4:5:6:7"` starts with `"1::"`), but that address is
not among the `2^(128-96)` addresses of the block `1::/96` — the union of
the denoted sets strictly exceeds the block, refuting the claim as stated
for IPv6. -/
theorem C1_counterexample :
    ProcessCIDR "1::/96" = some (["1::*"], none) ∧
    denotes "1::*" (.v6 [0, 1, 0, 0, 0, 0, 0, 3, 0, 4, 0, 5, 0, 6, 0, 7]) = true ∧
    ¬ inBlock ⟨.v6 [0, 1, 0, 0, 0, 0, 0, 0, 0, 0, 0, 0, 0, 0, 0, 0], 96⟩
        (.v6 [0, 1, 0, 0, 0, 0, 0, 3, 0, 4, 0, 5, 0, 6, 0, 7]) := by
  refine ⟨by decide, by decide, ?_⟩
  rw [inBlock]
  decide

/-- Witness for C1's amended theorem at the IPv4 CIDR `10.0.0.0/24` and the
in-block address `10.0.0.7`. -/
theorem C1_witness :
    (∃ pat ∈ ["10.0.0.*"], denotes pat (.v4 [10, 0, 0, 7]) = true) ↔
      inBlock ⟨.v4 [10, 0, 0, 0], 24⟩ (.v4 [10, 0, 0, 7]) :=
  C1_v4_coverage_exact 10 0 0 0 24 (by decide) (by decide) (by decide) (by decide)
    (by decide) ["10.0.0.*"] (by decide) 10 0 0 7 (by decide) (by decide) (by decide) (by decide)

/-- C2 (code bug): `ProcessRange "1.255.0.0" "2.0.0.0"` returns only the
patterns `"1.255.0.*"` and `"2.0.0.0"`: the carry peel at octet index 1
replaces a single character of `"1.255.0.0"` instead of the three
characters of the full lower tail, producing `1.255.0.*` where the intended
block pattern is `1.255.*`.  The address `1.255.1.0` lies inside the range
but is denoted by no returned pattern, so the union of the denoted sets is
strictly smaller than the range. -/
theorem C2_range_coverage_bug :
    ProcessRange "1.255.0.0" "2.0.0.0" = some (["1.255.0.*", "2.0.0.0"], none) ∧
    inRange (.v4 [1, 255, 0, 0]) (.v4 [2, 0, 0, 0]) (.v4 [1, 255, 1, 0]) ∧
    ∀ pat ∈ ["1.255.0.*", "2.0.0.0"], denotes pat (.v4 [1, 255, 1, 0]) = false := by
  refine ⟨by decide, ?_, by decide⟩
  rw [inRange]
  refine ⟨by decide, by decide, by decide⟩

/-- C3 counterexample: the spelling `"0:0:0:0:0:0:0:1"` is accepted by the
parser for the address `::1`, and `ProcessRange` on the degenerate range
returns the input spelling verbatim, not the canonical RFC 5952 form
`"::1"`. -/
theorem C3_counterexample :
    parseAddr "0:0:0:0:0:0:0:1" =
      some (.v6 [0, 0, 0, 0, 0, 0, 0, 0, 0, 0, 0, 0, 0, 0, 0, 1]) ∧
    ProcessRange "0:0:0:0:0:0:0:1" "0:0:0:0:0:0:0:1" =
      some (["0:0:0:0:0:0:0:1"], none) ∧
    addrStringOf (.v6 [0, 0, 0, 0, 0, 0, 0, 0, 0, 0, 0, 0, 0, 0, 0, 1]) = "::1" ∧
    ("0:0:0:0:0:0:0:1" : String) ≠ "::1" := by
  refine ⟨by decide, by decide, by decide, by decide⟩

/-- C3 (corrected, amended): `processPrefix` on a full-width prefix returns
exactly one pattern, the canonical formatted form of the address;
`ProcessRange(s, e)` with both inputs parsing to the same address returns
exactly one pattern, namely the start string `s` as spelled by the caller
(equal to the canonical form only when `s` is canonically spelled). -/
theorem C3_singleton_roundtrip :
    (∀ (a : Addr) (ps : List String), processPrefix ⟨a, a.bitLen⟩ = some ps →
      ps = [addrStringOf a]) ∧
    (∀ (s e : String) (a1 a2 : Addr), parseAddr s = some a1 → parseAddr e = some a2 →
      a1.bitLen = a2.bitLen → addrVal a1 = addrVal a2 →
      ProcessRange s e = some ([s], none)) := by
  constructor
  · intro a ps hps
    rw [processPrefix, if_pos rfl, Option.some.injEq] at hps
    exact hps.symm
  · intro s e a1 a2 h1 h2 hbl hval
    unfold ProcessRange
    rw [h1, h2]
    dsimp only
    rw [if_neg (fun hc => hc hbl), if_neg (by omega), if_pos hval]

/-- Witness for C3's amended theorem: the v4 singleton `127.0.0.1/32` and
the degenerate range `::1-::1`. -/
theorem C3_witness :
    (["127.0.0.1"] : List String) = [addrStringOf (.v4 [127, 0, 0, 1])] ∧
    ProcessRange "::1" "::1" = some (["::1"], none) := by
  constructor
  · exact C3_singleton_roundtrip.1 (.v4 [127, 0, 0, 1]) ["127.0.0.1"] (by decide)
  · exact C3_singleton_roundtrip.2 "::1" "::1"
      (.v6 [0, 0, 0, 0, 0, 0, 0, 0, 0, 0, 0, 0, 0, 0, 0, 1])
      (.v6 [0, 0, 0, 0, 0, 0, 0, 0, 0, 0, 0, 0, 0, 0, 0, 1])
      (by decide) (by decide) (by decide) (by decide)

/-- C7: `ProcessRange "10.0.0.254" "10.0.2.1"` returns exactly the five
patterns `10.0.0.254`, `10.0.0.255`, `10.0.2.1`, `10.0.2.0` and `10.0.1.*`
(in this emission order, which entails the claim's order-independent set
equality). -/
theorem C7_range_scenario :
    ProcessRange "10.0.0.254" "10.0.2.1" =
      some (["10.0.0.254", "10.0.0.255", "10.0.2.1", "10.0.2.0", "10.0.1.*"], none) := by
  decide

/-- C8: `ProcessCIDR "::ffff:10.0.0.0/111"` returns exactly the two 4-in-6
patterns `::ffff:10.0.*` and `::ffff:10.1.*`, rendered with the `.*`
wildcard at the dotted-octet boundary. -/
theorem C8_4in6_scenario :
    ProcessCIDR "::ffff:10.0.0.0/111" =
      some (["::ffff:10.0.*", "::ffff:10.1.*"], none) := by
  decide


lemma scanVarBits_spec (wb m : Nat) : scanVarBits wb m = specVarBits wb m := by
  unfold scanVarBits specVarBits
  dsimp only
  split_ifs with h1 h2 <;> omega

lemma scanBlock_spec (wb m : Nat) (hwb : 2 ≤ wb) : scanBlock wb m = specBlock wb m := by
  rw [scanBlock_eq wb m hwb, specBlock]

lemma v4sv_spec (ip : List Nat) (m : Nat) :
    v4sv ip m = specSv 8 (ip.getD (scanBlock 8 m) 0) m := by
  unfold v4sv specSv
  rw [scanVarBits_spec]
  norm_num

lemma v6sv_spec (ip : List Nat) (m : Nat) :
    v6sv ip m = specSv 16 (beUint16 ip (scanBlock 16 m)) m := by
  unfold v6sv specSv
  rw [scanVarBits_spec]
  norm_num

lemma v4ev_spec (ip : List Nat) (m : Nat) :
    v4ev ip m = specEv 8 (ip.getD (scanBlock 8 m) 0) m := by
  unfold v4ev specEv
  rw [v4sv_spec, scanVarBits_spec, Nat.shiftLeft_eq, one_mul]
  have h1 : 1 ≤ 2 ^ specVarBits 8 m := Nat.one_le_two_pow
  norm_num
  omega

lemma v6ev_spec (ip : List Nat) (m : Nat) :
    v6ev ip m = specEv 16 (beUint16 ip (scanBlock 16 m)) m := by
  unfold v6ev specEv
  rw [v6sv_spec, scanVarBits_spec, Nat.shiftLeft_eq, one_mul]
  have h1 : 1 ≤ 2 ^ specVarBits 16 m := Nat.one_le_two_pow
  norm_num
  omega

/-- C5: for every prefix that is not a single IP, `processPrefix` scans
exactly the word index `block = (bits-1)/word_bits` (truncating division,
block 0 for `bits = 0`), enumerating values from
`start_val = word[block] & (full_mask << variable_bits)` to
`end_val = start_val + 2^variable_bits - 1` in the word's native modular
width, with `variable_bits` as the spec states it; in particular an IPv4
`/0` prefix scans values 0 through 255 at word 0. -/
theorem C5_scan_parameters :
    (∀ (ip : List Nat) (m : Nat), m < 32 →
      processPrefix ⟨.v4 ip, m⟩ =
        some (genV4 ip (specBlock 8 m) (specSv 8 (ip.getD (specBlock 8 m) 0) m)
          (specEv 8 (ip.getD (specBlock 8 m) 0) m))) ∧
    (∀ (ip : List Nat) (m : Nat), m < 128 →
      processPrefix ⟨.v6 ip, m⟩ =
        genV6 ip (specBlock 16 m) (specSv 16 (beUint16 ip (specBlock 16 m)) m)
          (specEv 16 (beUint16 ip (specBlock 16 m)) m) (is4In6bytes ip)) ∧
    (∀ ip : List Nat, processPrefix ⟨.v4 ip, 0⟩ = some (genV4 ip 0 0 255)) := by
  have h4 : ∀ (ip : List Nat) (m : Nat), m < 32 →
      processPrefix ⟨.v4 ip, m⟩ =
        some (genV4 ip (specBlock 8 m) (specSv 8 (ip.getD (specBlock 8 m) 0) m)
          (specEv 8 (ip.getD (specBlock 8 m) 0) m)) := by
    intro ip m hm
    rw [processPrefix, if_neg (by simpa [Addr.bitLen] using Nat.ne_of_lt hm)]
    rw [← scanBlock_spec 8 m (by norm_num), ← v4sv_spec, ← v4ev_spec]
  refine ⟨h4, ?_, ?_⟩
  · intro ip m hm
    rw [processPrefix, if_neg (by simpa [Addr.bitLen] using Nat.ne_of_lt hm)]
    rw [← scanBlock_spec 16 m (by norm_num), ← v6sv_spec, ← v6ev_spec]
  · intro ip
    have h := h4 ip 0 (by norm_num)
    rw [h]
    have hb : specBlock 8 0 = 0 := rfl
    have hsv : specSv 8 (ip.getD 0 0) 0 = 0 := by
      unfold specSv
      have hz : ((2 ^ 8 - 1) <<< specVarBits 8 0) % 2 ^ 8 = 0 := by decide
      rw [hz, Nat.and_zero]
    have hev : specEv 8 (ip.getD 0 0) 0 = 255 := by
      unfold specEv
      rw [hsv]
      decide
    rw [hb, hsv, hev]

/-- Witness for C5 at the non-single prefix `127.0.0.1/8`. -/
theorem C5_witness :
    processPrefix ⟨.v4 [127, 0, 0, 1], 8⟩ =
      some (genV4 [127, 0, 0, 1] (specBlock 8 8)
        (specSv 8 ([127, 0, 0, 1].getD (specBlock 8 8) 0) 8)
        (specEv 8 ([127, 0, 0, 1].getD (specBlock 8 8) 0) 8)) :=
  C5_scan_parameters.1 [127, 0, 0, 1] 8 (by norm_num)


lemma errCond_somes {s e : String} {a1 a2 : Addr}
    (hs : parseAddr s = some a1) (he : parseAddr e = some a2) :
    errCond s e ↔ (a1.bitLen ≠ a2.bitLen ∨ addrVal a2 < addrVal a1) := by
  unfold errCond
  rw [hs, he]
  simp

/-- C6: `ProcessRange(s, e)` returns an error exactly when `s` or `e` fails
to parse, the two parsed addresses have different bit widths, or start is
numerically greater than end; in every error case the call returns (it
never diverges there) with an empty pattern list, and no error is
swallowed: whenever the call returns, the error is present if and only if
one of those conditions holds.  (The address parser is modelled from the
spec's collaborator contract.) -/
theorem C6_error_conditions : ∀ s e : String,
    (errCond s e → ∃ g, ProcessRange s e = some ([], some g)) ∧
    (∀ (ps : List String) (err : Option GoErr), ProcessRange s e = some (ps, err) →
      ((err.isSome = true ↔ errCond s e) ∧ (err.isSome = true → ps = []))) := by
  intro s e
  rcases hs : parseAddr s with _ | a1
  · have hre : ProcessRange s e = some ([], some .parseError) := by
      unfold ProcessRange
      rw [hs]
    refine ⟨fun _ => ⟨_, hre⟩, ?_⟩
    intro ps err h
    rw [hre, Option.some.injEq, Prod.mk.injEq] at h
    obtain ⟨rfl, rfl⟩ := h
    exact ⟨by simp [errCond, hs], fun _ => rfl⟩
  · rcases he : parseAddr e with _ | a2
    · have hre : ProcessRange s e = some ([], some .parseError) := by
        unfold ProcessRange
        rw [hs]
        dsimp only
        rw [he]
      refine ⟨fun _ => ⟨_, hre⟩, ?_⟩
      intro ps err h
      rw [hre, Option.some.injEq, Prod.mk.injEq] at h
      obtain ⟨rfl, rfl⟩ := h
      exact ⟨by simp [errCond, hs, he], fun _ => rfl⟩
    · by_cases hbl : a1.bitLen = a2.bitLen
      · by_cases hord : addrVal a2 < addrVal a1
        · have hre : ProcessRange s e = some ([], some .orderError) := by
            unfold ProcessRange
            rw [hs]
            dsimp only
            rw [he]
            dsimp only
            rw [if_neg (fun hc => hc hbl), if_pos hord]
          refine ⟨fun _ => ⟨_, hre⟩, ?_⟩
          intro ps err h
          rw [hre, Option.some.injEq, Prod.mk.injEq] at h
          obtain ⟨rfl, rfl⟩ := h
          refine ⟨?_, fun _ => rfl⟩
          rw [errCond_somes hs he]
          simp [hord]
        · have hnec : ¬ errCond s e := by
            rw [errCond_somes hs he]
            push_neg
            exact ⟨hbl, by omega⟩
          by_cases heq : addrVal a1 = addrVal a2
          · have hre : ProcessRange s e = some ([s], none) := by
              unfold ProcessRange
              rw [hs]
              dsimp only
              rw [he]
              dsimp only
              rw [if_neg (fun hc => hc hbl), if_neg hord, if_pos heq]
            refine ⟨fun hc => absurd hc hnec, ?_⟩
            intro ps err h
            rw [hre, Option.some.injEq, Prod.mk.injEq] at h
            obtain ⟨rfl, rfl⟩ := h
            exact ⟨by simpa using hnec, by simp⟩
          · rcases a1 with ip1 | ip1
            · rcases a2 with ip2 | ip2
              · have hre : ProcessRange s e = some (rangeV4 ip1 ip2, none) := by
                  unfold ProcessRange
                  rw [hs]
                  dsimp only
                  rw [he]
                  dsimp only
                  rw [if_neg (fun hc => hc hbl), if_neg hord, if_neg heq]
                refine ⟨fun hc => absurd hc hnec, ?_⟩
                intro ps err h
                rw [hre, Option.some.injEq, Prod.mk.injEq] at h
                obtain ⟨rfl, rfl⟩ := h
                exact ⟨by simpa using hnec, by simp⟩
              · simp [Addr.bitLen] at hbl
            · rcases a2 with ip2 | ip2
              · simp [Addr.bitLen] at hbl
              · have hre : ProcessRange s e =
                    (rangeV6 ip1 ip2).map (fun ps => (ps, none)) := by
                  unfold ProcessRange
                  rw [hs]
                  dsimp only
                  rw [he]
                  dsimp only
                  rw [if_neg (fun hc => hc hbl), if_neg hord, if_neg heq]
                refine ⟨fun hc => absurd hc hnec, ?_⟩
                intro ps err h
                rw [hre] at h
                rcases Option.map_eq_some'.1 h with ⟨ps', h1, h2⟩
                rw [Prod.mk.injEq] at h2
                obtain ⟨rfl, rfl⟩ := h2
                exact ⟨by simpa using hnec, by simp⟩
      · have hre : ProcessRange s e = some ([], some .typeMismatch) := by
          unfold ProcessRange
          rw [hs]
          dsimp only
          rw [he]
          dsimp only
          rw [if_pos hbl]
        refine ⟨fun _ => ⟨_, hre⟩, ?_⟩
        intro ps err h
        rw [hre, Option.some.injEq, Prod.mk.injEq] at h
        obtain ⟨rfl, rfl⟩ := h
        refine ⟨?_, fun _ => rfl⟩
        rw [errCond_somes hs he]
        simp [hbl]

/-- Witness for C6 at the order-violating v4 range `127.0.0.2-127.0.0.1`. -/
theorem C6_witness :
    ∃ g, ProcessRange "127.0.0.2" "127.0.0.1" = some ([], some g) :=
  (C6_error_conditions "127.0.0.2" "127.0.0.1").1 (by
    rw [errCond]
    right
    right
    exact ⟨.v4 [127, 0, 0, 2], .v4 [127, 0, 0, 1], by decide, by decide, by decide⟩)

/-- C9: in the v6 extra-pattern machinery, whenever (inside the
`zCount < 3`, `block < 5` branch) exactly one literal `"0"` group
immediately precedes the wildcard position, an earlier modification
occurred, and the group list has more than two groups, the iteration emits
both textual variants of the boundary pattern: the joined list with the
explicit zero group, and the joined list with that zero group folded into
the `::` compression (with the trailing group forced to `":"` at resolved
depth 4). -/
theorem C9_pz1_both_variants (block i sv dCount : Nat) (ext ipr : String)
    (prs1 prs2 : List String) (mod1 mod2 : Bool)
    (h1 : prsFix (splitColonStr ipr) = (prs1, mod1))
    (h2 : subEmpty (if i = sv then
        extGrow ext ((dCount : Int) - ((splitColonStr ipr).length : Int)) else ext) prs1 =
      (prs2, mod2))
    (hz : ((dCount : Int) - ((splitColonStr ipr).length : Int) + 1 +
      (if mod1 then 1 else 0)) < 3)
    (hb : block < 5)
    (hpz : preZeroOf prs2 = 1)
    (hmod : (mod1 || mod2) = true)
    (hpc : 2 < (splitColonStr ipr).length) :
    joinSep ":" prs2 ∈ (genV6extras block i sv ext ipr dCount).1 ∧
    joinSep ":" (if ((block : Int) - 1 = 4) then
        (prs2.set ((splitColonStr ipr).length - 2) "").set
          ((splitColonStr ipr).length - 1) ":"
      else prs2.set ((splitColonStr ipr).length - 2) "") ∈
      (genV6extras block i sv ext ipr dCount).1 := by
  unfold genV6extras
  dsimp only
  rw [h1]
  dsimp only
  rw [if_pos ⟨hz, hb⟩, h2]
  dsimp only
  unfold pzApply
  dsimp only
  rw [hpz]
  rw [if_neg (by norm_num), if_pos rfl, if_neg (by omega), hmod,
    if_pos (show (true = true) ∧ 2 < (splitColonStr ipr).length from ⟨rfl, hpc⟩),
    if_neg (by omega)]
  dsimp only
  unfold finalEmit
  rw [if_pos rfl]
  constructor
  · simp
  · simp

/-- Witness for C9 at the scanned value of CIDR `0:0:3333::/64` (pattern
`::3333:0:*`), where both `0:0:3333:0:*` and `0:0:3333::*` are emitted. -/
theorem C9_witness :
    joinSep ":" ["0", "0", "3333", "0", "*"] ∈ (genV6extras 3 0 0 "0" "::3333:0:*" 5).1 ∧
    joinSep ":" (if ((3 : Nat) : Int) - 1 = 4 then
        (["0", "0", "3333", "0", "*"].set ((splitColonStr "::3333:0:*").length - 2) "").set
          ((splitColonStr "::3333:0:*").length - 1) ":"
      else ["0", "0", "3333", "0", "*"].set ((splitColonStr "::3333:0:*").length - 2) "") ∈
      (genV6extras 3 0 0 "0" "::3333:0:*" 5).1 :=
  C9_pz1_both_variants 3 0 0 5 "0" "::3333:0:*" ["0", "", "3333", "0", "*"]
    ["0", "0", "3333", "0", "*"] true true (by decide) (by decide) (by decide) (by decide)
    (by decide) (by decide) (by decide)


/-- Invariant of the wrapped 4-in-6 `genV6` loop at `ev = eb4In6 = 0xffff`:
from any 256-aligned counter the loop keeps stepping by 256, never hits the
`i == ev` break (`0xffff` is not aligned), never fails the `i <= ev` test
(the `uint16` counter wraps below it), and therefore exhausts any fuel. -/
lemma genV6go_wrap_none (ip : List Nat) (tail : String) (sv : Nat) :
    ∀ (fuel i step : Nat) (ext : String) (acc : List String),
      i % 256 = 0 → i < 65536 → (step = 1 ∨ step = 256) →
      genV6go ip 6 tail true 65535 sv 65535 fuel i step ext acc = none := by
  intro fuel
  induction fuel with
  | zero => intros; rfl
  | succ n ih =>
    intro i step ext acc hi hlt hstep
    have hne : i ≠ 65535 := by omega
    have hlt' : i < 65535 := by omega
    rcases hgi : genV6iter ip 6 tail true 65535 sv i step ext with ⟨out, ext', step'⟩
    have hstep' : step' = 256 := by
      have hc := congrArg (fun t => t.2.2) hgi
      dsimp only at hc
      rw [← hc]
      rcases hstep with rfl | rfl
      · simp [genV6iter, genV6stepUpd, hi, hlt']
      · simp [genV6iter, genV6stepUpd, hi, hlt', show ¬(65535 ≤ i) from by omega]
    subst hstep'
    rw [genV6go, if_pos (by omega : i ≤ 65535), hgi]
    dsimp only
    rw [if_neg hne]
    exact ih ((i + 256) % 65536) 256 ext' (acc ++ out) (by omega) (by omega) (Or.inr rfl)

/-- C10 (code bug): the `genV6` enumeration loop does not always break
before the wrapping increment.  For the 4-in-6 scan of
`::ffff:128.0.0.0/97` — block 6, `sv = 0x8000 ≤ ev = 0xffff` — the 256-unit
step never makes the counter equal `ev`, the `uint16` wrap keeps it at or
below `ev`, and the loop runs forever: every fuel bound returns `none`, and
so do `processPrefix` and `ProcessCIDR` on that input. -/
theorem C10_genV6_loop_diverges :
    (∀ fuel ext acc,
      genV6go [0, 0, 0, 0, 0, 0, 0, 0, 0, 0, 255, 255, 128, 0, 255, 255] 6 ".255.255" true
        65535 32768 65535 fuel 32768 1 ext acc = none) ∧
    processPrefix ⟨.v6 [0, 0, 0, 0, 0, 0, 0, 0, 0, 0, 255, 255, 128, 0, 0, 0], 97⟩ = none ∧
    ProcessCIDR "::ffff:128.0.0.0/97" = none := by
  have hloop : ∀ fuel ext acc,
      genV6go [0, 0, 0, 0, 0, 0, 0, 0, 0, 0, 255, 255, 128, 0, 255, 255] 6 ".255.255" true
        65535 32768 65535 fuel 32768 1 ext acc = none := by
    intro fuel ext acc
    exact genV6go_wrap_none _ _ _ fuel 32768 1 ext acc (by norm_num) (by norm_num)
      (Or.inl rfl)
  have hgen : genV6 [0, 0, 0, 0, 0, 0, 0, 0, 0, 0, 255, 255, 128, 0, 0, 0] 6 32768 65535 true =
      none := by
    unfold genV6
    rw [show genV6fill true 8 7 [0, 0, 0, 0, 0, 0, 0, 0, 0, 0, 255, 255, 128, 0, 0, 0] =
      ([0, 0, 0, 0, 0, 0, 0, 0, 0, 0, 255, 255, 128, 0, 255, 255], ".255.255") from by decide]
    rw [show genV6eb 65535 = 65535 from by decide]
    exact hloop genV6fuel "0" []
  have hpp : processPrefix ⟨.v6 [0, 0, 0, 0, 0, 0, 0, 0, 0, 0, 255, 255, 128, 0, 0, 0], 97⟩ =
      none := by
    rw [processPrefix, if_neg (by simp [Addr.bitLen])]
    dsimp only
    rw [show scanBlock 16 97 = 6 from by decide]
    rw [show v6sv [0, 0, 0, 0, 0, 0, 0, 0, 0, 0, 255, 255, 128, 0, 0, 0] 97 = 32768 from by
      decide]
    rw [show v6ev [0, 0, 0, 0, 0, 0, 0, 0, 0, 0, 255, 255, 128, 0, 0, 0] 97 = 65535 from by
      decide]
    rw [show is4In6bytes [0, 0, 0, 0, 0, 0, 0, 0, 0, 0, 255, 255, 128, 0, 0, 0] = true from by
      decide]
    exact hgen
  refine ⟨hloop, hpp, ?_⟩
  rw [ProcessCIDR]
  rw [show parsePfx "::ffff:128.0.0.0/97" =
    some ⟨.v6 [0, 0, 0, 0, 0, 0, 0, 0, 0, 0, 255, 255, 128, 0, 0, 0], 97⟩ from by decide]
  dsimp only
  rw [hpp]
  rfl

end IPrefix
